import Mathlib

/-!
Verification development for `download_images.py` (diakrit_download).

The script canonicalizes image hyperlinks with `urllib.parse`
(`urlparse`, `parse_qs`, `urlencode`, `urlunparse`, `urljoin`),
deduplicates them in a set, and downloads each one with a
tenacity-retried worker (`stop_after_attempt(3)`, `wait_fixed(2)`).

This file gives a shallow embedding of that pipeline.  Python strings
are modelled as `List Char`; the `urllib.parse` helpers are translated
from the CPython 3.11 sources, since the script delegates all URL
handling to them.  The two places where the CPython code can raise
(`ValueError` on a mismatched IPv6 bracket and `_checknetloc`) are
validation-only and do not alter the returned components; the model is
total and simply returns the components.  HTML parsing and HTTP
transport are external capabilities per the design; they are modelled
as, respectively, the list of anchor `href` values and an oracle giving
the outcome of each fetch attempt.
-/

namespace DK

/-- Python strings, modelled as lists of unicode scalar values. -/
abbrev Str := List Char

/-- ASCII letter test, matching `str.isascii() and str.isalpha()` on one char. -/
def isAsciiAlphaCh (c : Char) : Bool :=
  ('a' ≤ c && c ≤ 'z') || ('A' ≤ c && c ≤ 'Z')

/-- ASCII digit test. -/
def isAsciiDigitCh (c : Char) : Bool :=
  '0' ≤ c && c ≤ '9'

/-- Membership in CPython `scheme_chars` (letters, digits, `+`, `-`, `.`). -/
def isSchemeChar (c : Char) : Bool :=
  isAsciiAlphaCh c || isAsciiDigitCh c || c == '+' || c == '-' || c == '.'

/-- ASCII lowercasing of one char, as `str.lower()` acts on ASCII.
The script only lowercases URL paths, extensions and schemes, which are
ASCII in every scenario of interest; non-ASCII chars are left unchanged. -/
def pyLowerChar (c : Char) : Char :=
  if 'A' ≤ c ∧ c ≤ 'Z' then Char.ofNat (c.toNat + 32) else c

/-- `str.lower()`. -/
def pyLower (s : Str) : Str := s.map pyLowerChar

/-- `s.take pat.length == pat`, i.e. `s.startswith(pat)`. -/
def startsWithStr (pat s : Str) : Bool := s.take pat.length == pat

/-- Membership of a char in `_WHATWG_C0_CONTROL_OR_SPACE` (codepoints 0x00 to 0x20). -/
def isC0Space (c : Char) : Bool := c ≤ ' '

/-- `url.lstrip(_WHATWG_C0_CONTROL_OR_SPACE)`. -/
def lstripC0 (s : Str) : Str := s.dropWhile isC0Space

/-- `scheme.strip(_WHATWG_C0_CONTROL_OR_SPACE)`. -/
def stripC0 (s : Str) : Str := ((s.dropWhile isC0Space).reverse.dropWhile isC0Space).reverse

/-- Removal of `_UNSAFE_URL_BYTES_TO_REMOVE` (tab, CR, LF), i.e. the three
`url.replace(b, "")` calls in `urlsplit`. -/
def removeTabCrLf (s : Str) : Str :=
  s.filter (fun c => !(c == '\t' || c == '\r' || c == '\n'))

/-- The preprocessing `urlsplit` applies to its `url` argument. -/
def cleanUrl (s : Str) : Str := removeTabCrLf (lstripC0 s)

/-- The preprocessing `urlsplit` applies to its default `scheme` argument. -/
def cleanScheme (s : Str) : Str := removeTabCrLf (stripC0 s)

/-- Split of the scheme prefix in `urlsplit`: the first `:` is located, and
the prefix before it is taken as the scheme when it is nonempty, starts with
an ASCII letter and consists of scheme chars only.  Returns the lowercased
scheme (or `[]` when none is found) and the remaining url. -/
def schemeSplit (url : Str) : Str × Str :=
  match url.dropWhile (fun c => !(c == ':')) with
  | [] => ([], url)
  | _ :: after =>
    if 0 < (url.takeWhile (fun c => !(c == ':'))).length ∧
        isAsciiAlphaCh (url.headD ' ') = true ∧
        (url.takeWhile (fun c => !(c == ':'))).all isSchemeChar = true
    then (pyLower (url.takeWhile (fun c => !(c == ':'))), after)
    else ([], url)

/-- Stop chars for `_splitnetloc` (the loop over `'/?#'`). -/
def isNetlocStop (c : Char) : Bool := c == '/' || c == '?' || c == '#'

/-- `_splitnetloc(url, 2)` applied when `url[:2] == '//'`: the netloc runs to
the first `/`, `?` or `#`.  Returns `([], url)` when the url does not start
with `//`. -/
def netlocSplit (url : Str) : Str × Str :=
  if startsWithStr ['/', '/'] url then
    let rest := url.drop 2
    (rest.takeWhile (fun c => !(isNetlocStop c)), rest.dropWhile (fun c => !(isNetlocStop c)))
  else ([], url)

/-- `url.split('#', 1)` as performed by `urlsplit` (allow_fragments is always
true in the script).  Returns `(rest, fragment)`; when no `#` occurs the
fragment is empty and the url unchanged. -/
def fragSplit (url : Str) : Str × Str :=
  match url.dropWhile (fun c => !(c == '#')) with
  | [] => (url, [])
  | _ :: after => (url.takeWhile (fun c => !(c == '#')), after)

/-- `url.split('?', 1)` as performed by `urlsplit`.  Returns `(path, query)`. -/
def querySplit (url : Str) : Str × Str :=
  match url.dropWhile (fun c => !(c == '?')) with
  | [] => (url, [])
  | _ :: after => (url.takeWhile (fun c => !(c == '?')), after)

/-- Result record of `urlsplit`. -/
structure SplitResult where
  scheme : Str
  netloc : Str
  path : Str
  query : Str
  fragment : Str
deriving DecidableEq, Repr

/-- CPython `urllib.parse.urlsplit(url, scheme)` with `allow_fragments=True`.
The IPv6-bracket and `_checknetloc` validations raise without modifying the
result; the model is total and returns the components. -/
def urlsplit (url defaultScheme : Str) : SplitResult :=
  let u := cleanUrl url
  let d := cleanScheme defaultScheme
  let p1 := schemeSplit u
  let scheme := if p1.1 = [] then d else p1.1
  let p2 := netlocSplit p1.2
  let p3 := fragSplit p2.2
  let p4 := querySplit p3.1
  ⟨scheme, p2.1, p4.1, p4.2, p3.2⟩

/-- First index of `c` in `s`, if any (`str.find`). -/
def findCharIdx (c : Char) (s : Str) : Option Nat :=
  s.findIdx? (fun x => x == c)

/-- First index of `c` in `s` at position `start` or later (`str.find(c, start)`). -/
def findCharFrom (c : Char) (s : Str) (start : Nat) : Option Nat :=
  (findCharIdx c (s.drop start)).map (· + start)

/-- Last index of `c` in `s`, if any (`str.rfind`). -/
def rfindCharIdx (c : Char) (s : Str) : Option Nat :=
  (findCharIdx c s.reverse).map (fun i => s.length - 1 - i)

/-- CPython `_splitparams(url)`.  The caller (`urlparse`) only invokes it when
`;` occurs in the path; the impossible not-found fallback returns no params. -/
def splitParams (url : Str) : Str × Str :=
  if url.contains '/' then
    match findCharFrom ';' url ((rfindCharIdx '/' url).getD 0) with
    | none => (url, [])
    | some i => (url.take i, url.drop (i + 1))
  else
    match findCharIdx ';' url with
    | none => (url, [])
    | some i => (url.take i, url.drop (i + 1))

/-- CPython `uses_relative`. -/
def usesRelative : List Str :=
  (["", "ftp", "http", "gopher", "nntp", "imap", "wais", "file", "https", "shttp",
    "mms", "prospero", "rtsp", "rtsps", "rtspu", "sftp", "svn", "svn+ssh", "ws", "wss"]).map
    String.data

/-- CPython `uses_netloc`. -/
def usesNetloc : List Str :=
  (["", "ftp", "http", "gopher", "nntp", "telnet", "imap", "wais", "file", "mms",
    "https", "shttp", "snews", "prospero", "rtsp", "rtsps", "rtspu", "rsync", "svn",
    "svn+ssh", "sftp", "nfs", "git", "git+ssh", "ws", "wss"]).map String.data

/-- CPython `uses_params`. -/
def usesParams : List Str :=
  (["", "ftp", "hdl", "prospero", "http", "imap", "https", "shttp", "rtsp",
    "rtsps", "rtspu", "sip", "sips", "mms", "sftp", "tel"]).map String.data

/-- Result record of `urlparse`. -/
structure ParseResult where
  scheme : Str
  netloc : Str
  path : Str
  params : Str
  query : Str
  fragment : Str
deriving DecidableEq, Repr

/-- CPython `urllib.parse.urlparse(url, scheme)` with `allow_fragments=True`. -/
def urlparse (url defaultScheme : Str) : ParseResult :=
  if (urlsplit url defaultScheme).scheme ∈ usesParams ∧
      (urlsplit url defaultScheme).path.contains ';' = true then
    ⟨(urlsplit url defaultScheme).scheme, (urlsplit url defaultScheme).netloc,
      (splitParams (urlsplit url defaultScheme).path).1,
      (splitParams (urlsplit url defaultScheme).path).2,
      (urlsplit url defaultScheme).query, (urlsplit url defaultScheme).fragment⟩
  else
    ⟨(urlsplit url defaultScheme).scheme, (urlsplit url defaultScheme).netloc,
      (urlsplit url defaultScheme).path, [],
      (urlsplit url defaultScheme).query, (urlsplit url defaultScheme).fragment⟩

/-- CPython 3.11 `urlunsplit`. -/
def urlunsplit (scheme netloc path query fragment : Str) : Str :=
  let url1 :=
    if ¬ netloc = [] ∨ (¬ scheme = [] ∧ scheme ∈ usesNetloc ∧ ¬ path.take 2 = ['/', '/']) then
      let p2 := if ¬ path = [] ∧ ¬ path.take 1 = ['/'] then '/' :: path else path
      ['/', '/'] ++ netloc ++ p2
    else path
  let url2 := if ¬ scheme = [] then scheme ++ ':' :: url1 else url1
  let url3 := if ¬ query = [] then url2 ++ '?' :: query else url2
  if ¬ fragment = [] then url3 ++ '#' :: fragment else url3

/-- CPython `urlunparse`. -/
def urlunparse (scheme netloc path params query fragment : Str) : Str :=
  urlunsplit scheme netloc (if ¬ params = [] then path ++ ';' :: params else path)
    query fragment

/-- `str.split(c)` (all occurrences, keeping empty parts; the result is
never empty). -/
def splitOnCh (c : Char) : Str → List Str
  | [] => [[]]
  | x :: rest =>
    if x == c then [] :: splitOnCh c rest
    else
      match splitOnCh c rest with
      | [] => [[x]]
      | h :: t => (x :: h) :: t

/-- `'/'.join(parts)` style joining with a single-char separator. -/
def joinCh (c : Char) : List Str → Str
  | [] => []
  | [p] => p
  | p :: q :: rest => p ++ c :: joinCh c (q :: rest)

/-- One step of the segment-resolution loop in `urljoin` (`..` pops, `.` is
skipped, anything else is appended; popping an empty stack is ignored). -/
def resolveStep (acc : List Str) (seg : Str) : List Str :=
  if seg = ['.', '.'] then acc.dropLast
  else if seg = ['.'] then acc
  else acc ++ [seg]

/-- `segments[1:-1] = filter(None, segments[1:-1])`: drops empty segments
other than the first and last. -/
def keepEndsFilter (l : List Str) : List Str :=
  match l with
  | [] => []
  | [a] => [a]
  | a :: b :: rest =>
    a :: (((b :: rest).dropLast.filter (fun s => ¬ s = [])) ++ [(b :: rest).getLastD []])

/-- CPython `urljoin(base, url)` with `allow_fragments=True`. -/
def urljoin (base url : Str) : Str :=
  if base = [] then url
  else if url = [] then base
  else
    let b := urlparse base []
    let r := urlparse url b.scheme
    if ¬ (r.scheme = b.scheme ∧ r.scheme ∈ usesRelative) then url
    else if r.scheme ∈ usesNetloc ∧ ¬ r.netloc = [] then
      urlunparse r.scheme r.netloc r.path r.params r.query r.fragment
    else
      let netloc := if r.scheme ∈ usesNetloc then b.netloc else r.netloc
      if r.path = [] ∧ r.params = [] then
        urlunparse r.scheme netloc b.path b.params
          (if r.query = [] then b.query else r.query) r.fragment
      else
        let baseParts0 := splitOnCh '/' b.path
        let baseParts := if ¬ baseParts0.getLastD [] = [] then baseParts0.dropLast else baseParts0
        let segments :=
          if r.path.take 1 = ['/'] then splitOnCh '/' r.path
          else keepEndsFilter (baseParts ++ splitOnCh '/' r.path)
        let resolved0 := segments.foldl resolveStep []
        let resolved :=
          if segments.getLastD [] = ['.', '.'] ∨ segments.getLastD [] = ['.']
          then resolved0 ++ [([] : Str)] else resolved0
        let joined := joinCh '/' resolved
        urlunparse r.scheme netloc (if joined = [] then ['/'] else joined)
          r.params r.query r.fragment

/-! ### Percent-encoding and query strings -/

/-- UTF-8 encoding of one unicode scalar value, as `str.encode('utf-8')`
produces for one char. -/
def utf8Bytes (c : Char) : List Nat :=
  if c.toNat < 0x80 then [c.toNat]
  else if c.toNat < 0x800 then [0xC0 + c.toNat / 64, 0x80 + c.toNat % 64]
  else if c.toNat < 0x10000 then
    [0xE0 + c.toNat / 4096, 0x80 + (c.toNat / 64) % 64, 0x80 + c.toNat % 64]
  else
    [0xF0 + c.toNat / 262144, 0x80 + (c.toNat / 4096) % 64,
      0x80 + (c.toNat / 64) % 64, 0x80 + c.toNat % 64]

/-- The U+FFFD replacement char used by `bytes.decode('utf-8', 'replace')`. -/
def replacementChar : Char := Char.ofNat 0xFFFD

/-- Continuation-byte test (0x80 to 0xBF). -/
def isContByte (b : Nat) : Bool := 0x80 ≤ b && b < 0xC0

/-- `bytes.decode('utf-8', errors='replace')`: strict UTF-8 decoding where
each maximal subpart of an ill-formed sequence becomes one U+FFFD. -/
def utf8Decode : List Nat → Str
  | [] => []
  | b :: bs =>
    if b < 0x80 then Char.ofNat b :: utf8Decode bs
    else if b < 0xC2 then replacementChar :: utf8Decode bs
    else if b < 0xE0 then
      match bs with
      | [] => [replacementChar]
      | b1 :: rest =>
        if isContByte b1 then Char.ofNat ((b - 0xC0) * 64 + (b1 - 0x80)) :: utf8Decode rest
        else replacementChar :: utf8Decode (b1 :: rest)
    else if b < 0xF0 then
      match bs with
      | [] => [replacementChar]
      | b1 :: rest =>
        if (if b = 0xE0 then 0xA0 else 0x80) ≤ b1 ∧ b1 < (if b = 0xED then 0xA0 else 0xC0) then
          match rest with
          | [] => [replacementChar]
          | b2 :: rest2 =>
            if isContByte b2 then
              Char.ofNat ((b - 0xE0) * 4096 + (b1 - 0x80) * 64 + (b2 - 0x80)) :: utf8Decode rest2
            else replacementChar :: utf8Decode (b2 :: rest2)
        else replacementChar :: utf8Decode (b1 :: rest)
    else if b < 0xF5 then
      match bs with
      | [] => [replacementChar]
      | b1 :: rest =>
        if (if b = 0xF0 then 0x90 else 0x80) ≤ b1 ∧ b1 < (if b = 0xF4 then 0x90 else 0xC0) then
          match rest with
          | [] => [replacementChar]
          | b2 :: rest2 =>
            if isContByte b2 then
              match rest2 with
              | [] => [replacementChar]
              | b3 :: rest3 =>
                if isContByte b3 then
                  Char.ofNat ((b - 0xF0) * 262144 + (b1 - 0x80) * 4096 +
                    (b2 - 0x80) * 64 + (b3 - 0x80)) :: utf8Decode rest3
                else replacementChar :: utf8Decode (b3 :: rest3)
            else replacementChar :: utf8Decode (b2 :: rest2)
        else replacementChar :: utf8Decode (b1 :: rest)
    else replacementChar :: utf8Decode bs
termination_by bs => bs.length
decreasing_by all_goals (simp_wf <;> omega)

/-- `str.encode('utf-8')` on a whole string. -/
def utf8Encode (s : Str) : List Nat := (s.map utf8Bytes).join

/-- Hex-digit test, both cases (`_hexdig`). -/
def isHexDigitCh (c : Char) : Bool :=
  isAsciiDigitCh c || ('a' ≤ c && c ≤ 'f') || ('A' ≤ c && c ≤ 'F')

/-- Value of a hex digit. -/
def hexVal (c : Char) : Nat :=
  if isAsciiDigitCh c then c.toNat - 48
  else if 'a' ≤ c ∧ c ≤ 'f' then c.toNat - 87
  else c.toNat - 55

/-- The byte-accumulating scan of `unquote` composed with `unquote_to_bytes`:
`%XX` groups and raw ASCII chars of one run are gathered into a byte string
decoded as UTF-8 (errors replaced); chars above ASCII pass through unchanged.
An invalid escape contributes a literal `%` byte. -/
def unquoteAux : Str → List Nat → Str
  | [], buf => utf8Decode buf
  | c :: rest, buf =>
    if c.toNat < 0x80 then
      if c = '%' then
        match rest with
        | h1 :: h2 :: rest2 =>
          if isHexDigitCh h1 ∧ isHexDigitCh h2 then
            unquoteAux rest2 (buf ++ [hexVal h1 * 16 + hexVal h2])
          else unquoteAux (h1 :: h2 :: rest2) (buf ++ [0x25])
        | r => unquoteAux r (buf ++ [0x25])
      else unquoteAux rest (buf ++ [c.toNat])
    else utf8Decode buf ++ c :: unquoteAux rest []
termination_by s _ => s.length
decreasing_by all_goals (simp_wf <;> omega)

/-- CPython `unquote(string, encoding='utf-8', errors='replace')`. -/
def unquote (s : Str) : Str :=
  if s.contains '%' = false then s else unquoteAux s []

/-- `string.replace('+', ' ')` as done by `parse_qsl` on names and values
(and by `unquote_plus`). -/
def replacePlus (s : Str) : Str := s.map (fun c => if c = '+' then ' ' else c)

/-- `unquote_plus`: plus signs become spaces, then `unquote`. -/
def unquote_plus (s : Str) : Str := unquote (replacePlus s)

/-- CPython `parse_qsl(qs)` with the default arguments the script uses
(`keep_blank_values=False`, `strict_parsing=False`, separator `&`):
empty fields, fields without `=` and fields with an empty value are
skipped; names and values are plus-replaced and percent-decoded. -/
def parse_qsl (qs : Str) : List (Str × Str) :=
  (splitOnCh '&' qs).filterMap (fun field =>
    if field.contains '=' = true then
      let name := field.takeWhile (fun c => !(c == '='))
      let value := ((field.dropWhile (fun c => !(c == '='))).tail)
      if value = [] then none
      else some (unquote_plus name, unquote_plus value)
    else none)

/-- Python dict from names to lists of values, in insertion order. -/
abbrev QDict := List (Str × List Str)

/-- One step of the grouping loop in `parse_qs`: append to an existing
entry, else add a new entry at the end. -/
def qdictAdd : QDict → Str → Str → QDict
  | [], k, v => [(k, [v])]
  | (k0, vs) :: rest, k, v =>
    if k0 = k then (k0, vs ++ [v]) :: rest else (k0, vs) :: qdictAdd rest k v

/-- CPython `parse_qs(qs)` with default arguments: the `parse_qsl` pairs
grouped into an insertion-ordered dict. -/
def parse_qs (qs : Str) : QDict :=
  (parse_qsl qs).foldl (fun d kv => qdictAdd d kv.1 kv.2) []

/-- `dict.pop(key, None)`: removes the entry with the given key, if present. -/
def qdictPop (k : Str) (d : QDict) : QDict :=
  d.filter (fun p => ¬ p.1 = k)

/-- Membership in `_ALWAYS_SAFE` with `safe=''`: ASCII letters, digits and
`_ . - ~`. -/
def isAlwaysSafe (c : Char) : Bool :=
  isAsciiAlphaCh c || isAsciiDigitCh c || c == '_' || c == '.' || c == '-' || c == '~'

/-- Uppercase hex digit of a value below 16. -/
def hexUpper (n : Nat) : Char :=
  if n < 10 then Char.ofNat (48 + n) else Char.ofNat (55 + n)

/-- Encoding of one char under `quote_plus` with `safe=''`: space becomes
`+`, always-safe chars pass through, anything else becomes the uppercase
percent escapes of its UTF-8 bytes. -/
def quotePlusChar (c : Char) : Str :=
  if c = ' ' then ['+']
  else if isAlwaysSafe c then [c]
  else (utf8Bytes c).foldr (fun b acc => '%' :: hexUpper (b / 16) :: hexUpper (b % 16) :: acc) []

/-- CPython `quote_plus(s, safe='')`. -/
def quote_plus (s : Str) : Str := s.foldr (fun c acc => quotePlusChar c ++ acc) []

/-- CPython `urlencode(query, doseq=True)` on a dict from strings to lists
of strings: one `k=v` pair per list element, joined with `&`. -/
def urlencode (d : QDict) : Str :=
  joinCh '&' ((d.map (fun kv => kv.2.map (fun v => quote_plus kv.1 ++ '=' :: quote_plus v))).join)

/-! ### The script: extraction and canonicalization -/

/-- The `remove_params` dict that `main` builds from the CLI flags
(`raw_image`, `no_watermark`, `additional_params`). -/
structure RemoveParams where
  raw_image : Bool
  no_watermark : Bool
  additional_params : List Str
deriving DecidableEq, Repr

/-- Python substring test `pat in s`. -/
def subStr (pat : Str) : Str → Bool
  | [] => pat == []
  | c :: rest => startsWithStr pat (c :: rest) || subStr pat rest

/-- `s.endswith(suf)`. -/
def endsWithStr (suf s : Str) : Bool := s.drop (s.length - suf.length) == suf

/-- The query-dict removal block of `extract_image_urls` (lines 127-138):
pop `width` and `height` under `raw_image`, pop `watermark` under
`no_watermark`, then pop each name in `additional_params`. -/
def stripParams (rules : RemoveParams) (d : QDict) : QDict :=
  let d1 := if rules.raw_image then qdictPop ("height".data) (qdictPop ("width".data) d) else d
  let d2 := if rules.no_watermark then qdictPop ("watermark".data) d1 else d1
  rules.additional_params.foldl (fun acc p => qdictPop p acc) d2

/-- The per-href body of `extract_image_urls` applied to the components of
an already-parsed href: re-encode the stripped query dict, reassemble with
`urlunparse`, then resolve against the base with `urljoin`. -/
def canonFromParse (base : Str) (rules : RemoveParams) (p : ParseResult) : Str :=
  let newQuery := urlencode (stripParams rules (parse_qs p.query))
  urljoin base (urlunparse p.scheme p.netloc p.path p.params newQuery p.fragment)

/-- Full canonicalization of one raw href (lines 121-154 of the script). -/
def canonicalize (href base : Str) (rules : RemoveParams) : Str :=
  canonFromParse base rules (urlparse href [])

/-- The order-file marker the script requires in the raw href (line 120). -/
def markerStr : Str := "/orderfiles/".data

/-- The filter of `extract_image_urls` (lines 120-123): the raw href must
contain `/orderfiles/` and the parsed path, lowercased, must end with one
of the lowercased extensions. -/
def candidateOk (exts : List Str) (href : Str) : Bool :=
  subStr markerStr href &&
    (exts.map pyLower).any (fun e => endsWithStr e (pyLower (urlparse href []).path))

/-- `extract_image_urls(html, base_url, extensions, remove_params)`, with the
external HTML-parse capability supplying the anchor hrefs in document order.
The Python `set` accumulator is modelled as a `Finset`. -/
def extract_image_urls (anchors : List Str) (base : Str) (exts : List Str)
    (rules : RemoveParams) : Finset Str :=
  anchors.foldl
    (fun s h => if candidateOk exts h then insert (canonicalize h base rules) s else s) ∅

/-! ### The script: download pipeline -/

/-- `os.path.basename(p)`: the part after the last slash. -/
def basename (p : Str) : Str :=
  (p.reverse.takeWhile (fun c => !(c == '/'))).reverse

/-- `os.path.join(a, b)` for POSIX paths, in the shape the script uses. -/
def pyPathJoin (a b : Str) : Str :=
  if startsWithStr ['/'] b then b
  else if a = [] ∨ endsWithStr ['/'] a then a ++ b
  else a ++ '/' :: b

/-- The local filesystem, as an association of paths to byte contents. -/
abbrev FS := List (Str × List Nat)

/-- `os.path.exists`. -/
def fsExists (fs : FS) (p : Str) : Bool := (fs.map (fun e => e.1)).contains p

/-- File creation or truncating overwrite, as `open(p, 'wb')` plus writes. -/
def fsWrite (fs : FS) (p : Str) (content : List Nat) : FS :=
  if fsExists fs p then fs.map (fun e => if e.1 = p then (p, content) else e)
  else fs ++ [(p, content)]

/-- Behaviour of one image fetch attempt, supplied by the environment:
the stream succeeds with the full bytes; or it fails before the output file
is opened (connection error or `raise_for_status`); or it fails midway
through the chunk loop, after the file has been created with a prefix of
the content. -/
inductive FetchOutcome where
  | success (content : List Nat)
  | failBeforeWrite
  | failDuringWrite (written : List Nat)
deriving DecidableEq, Repr

/-- How one call of the `download_image` body ends: early return because the
file exists, normal completion, or an exception (which tenacity catches). -/
inductive AttemptResult where
  | alreadyExists
  | downloaded
  | raised
deriving DecidableEq, Repr

/-- The derived local filename of a job (lines 176-177):
`os.path.join(output_dir, os.path.basename(urlparse(url).path))`. -/
def localPath (url outdir : Str) : Str :=
  pyPathJoin outdir (basename (urlparse url []).path)

/-- Effect of one call of the `download_image` body (lines 174-212): derive
the filename from the parsed URL path, return at once when the file exists,
else perform the fetch and stream to the final path. -/
def downloadAttempt (url outdir : Str) (fs : FS) (fetch : FetchOutcome) :
    AttemptResult × FS × Nat :=
  let localFilename := localPath url outdir
  if fsExists fs localFilename then (.alreadyExists, fs, 0)
  else
    match fetch with
    | .success content => (.downloaded, fsWrite fs localFilename content, 1)
    | .failBeforeWrite => (.raised, fs, 1)
    | .failDuringWrite written => (.raised, fsWrite fs localFilename written, 1)

/-- Terminal state of one job under the tenacity wrapper: `result = none`
means every allowed attempt raised and a `RetryError` escapes; otherwise the
final attempt returned normally.  `attempts` counts calls made, `sleeps`
records the `wait_fixed` delays taken between attempts, `fetchCalls` counts
`requests.get` calls. -/
structure JobOutcome where
  result : Option AttemptResult
  attempts : Nat
  sleeps : List Nat
  fetchCalls : Nat
  fs : FS
deriving DecidableEq, Repr

/-- The tenacity driver: `fuel` is the number of attempts still allowed,
`n` the current attempt number, `wait` the fixed delay.  On an exception it
stops when no attempt remains (`stop_after_attempt`), else sleeps and
retries. -/
def retryGo (url outdir : Str) (oracle : Nat → FetchOutcome) (wait : Nat) :
    Nat → Nat → FS → JobOutcome
  | 0, n, fs => ⟨none, n - 1, [], 0, fs⟩
  | fuel + 1, n, fs =>
    let e := downloadAttempt url outdir fs (oracle n)
    match e.1 with
    | .raised =>
      if fuel = 0 then ⟨none, n, [], e.2.2, e.2.1⟩
      else
        let rest := retryGo url outdir oracle wait fuel (n + 1) e.2.1
        ⟨rest.result, rest.attempts, wait :: rest.sleeps, e.2.2 + rest.fetchCalls, rest.fs⟩
    | r => ⟨some r, n, [], e.2.2, e.2.1⟩

/-- `download_image` as decorated with
`retry(stop=stop_after_attempt(3), wait=wait_fixed(2))`. -/
def download_image (url outdir : Str) (oracle : Nat → FetchOutcome) (fs : FS) : JobOutcome :=
  retryGo url outdir oracle 2 3 1 fs

/-- Outcome of the download phase of `main`: the resolved jobs in order,
the final filesystem, and whether an escaped `RetryError` aborted the
run. -/
structure RunState where
  outcomes : List (Str × JobOutcome)
  fs : FS
  aborted : Bool
deriving DecidableEq, Repr

/-- The sequential loop of `main` (lines 326-327): jobs run one by one and
an escaped `RetryError` propagates out of `main`, so later jobs never
run. -/
def runSequential (outdir : Str) (oracle : Str → Nat → FetchOutcome) :
    List Str → FS → RunState
  | [], fs => ⟨[], fs, false⟩
  | u :: rest, fs =>
    let j := download_image u outdir (oracle u) fs
    match j.result with
    | none => ⟨[(u, j)], j.fs, true⟩
    | some _ =>
      let r := runSequential outdir oracle rest j.fs
      ⟨(u, j) :: r.outcomes, r.fs, r.aborted⟩

/-- The parallel branch of `main` (lines 315-323): every submitted job runs
to its own completion; the futures are only iterated for progress display and
never queried, so an exhausted job's `RetryError` is swallowed and the run
never aborts.  The pool is modelled by one linearization of the job
executions, which all touch disjoint derived filenames in the scenarios
stated about this model. -/
def runParallel (outdir : Str) (oracle : Str → Nat → FetchOutcome) :
    List Str → FS → RunState
  | [], fs => ⟨[], fs, false⟩
  | u :: rest, fs =>
    let j := download_image u outdir (oracle u) fs
    let r := runParallel outdir oracle rest j.fs
    ⟨(u, j) :: r.outcomes, r.fs, false⟩

/-- Exit code and final state of `main` from the page fetch on (lines
268-331): exit 1 when the fetched page text is empty, exit 1 when extraction
finds no URL, otherwise the downloads run — `urlOrder` is the iteration
order of the extracted set — and an escaped `RetryError` (sequential mode
only) terminates the interpreter with exit code 1; otherwise `main` falls
off the end with exit code 0. -/
def mainRun (html : Str) (anchors : List Str) (base : Str) (exts : List Str)
    (rules : RemoveParams) (par : Bool) (outdir : Str)
    (oracle : Str → Nat → FetchOutcome) (fs : FS) (urlOrder : List Str) : Nat × RunState :=
  if html = [] then (1, ⟨[], fs, false⟩)
  else if extract_image_urls anchors base exts rules = ∅ then (1, ⟨[], fs, false⟩)
  else
    let st := if par then runParallel outdir oracle urlOrder fs
              else runSequential outdir oracle urlOrder fs
    (if st.aborted then 1 else 0, st)

/-! ### Auxiliary notions used by the statements -/

/-- The observable part of a job outcome other than the shared filesystem. -/
def jobCore (j : JobOutcome) : Option AttemptResult × Nat × List Nat × Nat :=
  (j.result, j.attempts, j.sleeps, j.fetchCalls)

/-- The query component of a URL string, as `urlparse` would recover it. -/
def queryOf (u : Str) : Str := (urlsplit u []).query

/-- The parameter names of a query string under the decoding the script
uses (`parse_qs`). -/
def queryKeys (q : Str) : List Str := (parse_qs q).map (fun p => p.1)

/-- Strings free of `?` and `#`. -/
def noQH (s : Str) : Prop := ∀ c ∈ s, c ≠ '?' ∧ c ≠ '#'

/-- Strings free of the removed unsafe bytes (tab, CR, LF). -/
def cleanChars (s : Str) : Prop := ∀ c ∈ s, c ≠ '\t' ∧ c ≠ '\r' ∧ c ≠ '\n'

/-! ## Lemmas: generic list facts -/

theorem mem_of_mem_takeWhile {p : Char → Bool} {l : Str} {c : Char}
    (h : c ∈ l.takeWhile p) : c ∈ l :=
  (List.takeWhile_sublist p).mem h

theorem mem_of_mem_dropWhile {p : Char → Bool} {l : Str} {c : Char}
    (h : c ∈ l.dropWhile p) : c ∈ l :=
  (List.dropWhile_sublist p).mem h

theorem takeWhile_stop {p : Char → Bool} (l1 : Str) (x : Char) (l2 : Str)
    (h1 : ∀ c ∈ l1, p c = true) (hx : p x = false) :
    (l1 ++ x :: l2).takeWhile p = l1 := by
  induction l1 with
  | nil => simp [List.takeWhile, hx]
  | cons a t ih =>
    have ha : p a = true := h1 a (by simp)
    simp only [List.cons_append, List.takeWhile_cons_of_pos ha]
    rw [ih (fun c hc => h1 c (by simp [hc]))]

theorem dropWhile_stop {p : Char → Bool} (l1 : Str) (x : Char) (l2 : Str)
    (h1 : ∀ c ∈ l1, p c = true) (hx : p x = false) :
    (l1 ++ x :: l2).dropWhile p = x :: l2 := by
  induction l1 with
  | nil => simp [List.dropWhile, hx]
  | cons a t ih =>
    have ha : p a = true := h1 a (by simp)
    simp only [List.cons_append, List.dropWhile_cons_of_pos ha]
    exact ih (fun c hc => h1 c (by simp [hc]))

theorem dropWhile_head_false {p : Char → Bool} {l : Str} {x : Char} {t : Str}
    (h : l.dropWhile p = x :: t) : p x = false := by
  induction l with
  | nil => simp [List.dropWhile] at h
  | cons a r ih =>
    by_cases ha : p a = true
    · rw [List.dropWhile_cons_of_pos ha] at h; exact ih h
    · rw [List.dropWhile_cons_of_neg ha] at h
      cases h; simpa using ha

theorem isSchemeChar_props {c : Char} (h : isSchemeChar c = true) :
    c ≠ '?' ∧ c ≠ '#' ∧ c ≠ '\t' ∧ c ≠ '\r' ∧ c ≠ '\n' := by
  refine ⟨?_, ?_, ?_, ?_, ?_⟩ <;> (rintro rfl; exact absurd h (by decide))

theorem isC0Space_props {c : Char} (h : isC0Space c = true) : c ≠ '?' ∧ c ≠ '#' := by
  constructor <;> (rintro rfl; exact absurd h (by decide))

/-! ## Lemmas: recovering the query of a reassembled URL -/

theorem schemeSplit_decomp (u : Str) :
    ∃ pre, u = pre ++ (schemeSplit u).2 ∧ noQH pre := by
  unfold schemeSplit
  split
  · exact ⟨[], by simp, by intro c hc; simp at hc⟩
  next x after heq =>
    split
    next hcond =>
      refine ⟨u.takeWhile (fun c => !(c == ':')) ++ [':'], ?_, ?_⟩
      · have h0 : u.takeWhile (fun c => !(c == ':')) ++ u.dropWhile (fun c => !(c == ':'))
            = u := by apply List.takeWhile_append_dropWhile
        have hx : x = ':' := by
          have := dropWhile_head_false heq
          simpa using this
        rw [heq, hx] at h0
        simp only [List.append_assoc, List.singleton_append]
        exact h0.symm
      · intro c hc
        rcases List.mem_append.mp hc with hc1 | hc2
        · have hs : isSchemeChar c = true := by
            have hall := hcond.2.2
            exact List.all_eq_true.mp hall c hc1
          exact ⟨(isSchemeChar_props hs).1, (isSchemeChar_props hs).2.1⟩
        · simp at hc2
          subst hc2
          exact ⟨by decide, by decide⟩
    · exact ⟨[], by simp, by intro c hc; simp at hc⟩

theorem netlocSplit_decomp (u : Str) :
    ∃ pre, u = pre ++ (netlocSplit u).2 ∧ noQH pre := by
  unfold netlocSplit
  split
  next hsw =>
    refine ⟨'/' :: '/' :: (u.drop 2).takeWhile (fun c => !(isNetlocStop c)), ?_, ?_⟩
    · have htake : u.take 2 = ['/', '/'] := by
        have := hsw
        unfold startsWithStr at this
        simpa using this
      have h0 : u = u.take 2 ++ u.drop 2 := (List.take_append_drop 2 u).symm
      rw [htake] at h0
      conv_lhs => rw [h0]
      simp [List.takeWhile_append_dropWhile]
    · intro c hc
      simp only [List.mem_cons] at hc
      rcases hc with rfl | rfl | hc
      · exact ⟨by decide, by decide⟩
      · exact ⟨by decide, by decide⟩
      · have := List.mem_takeWhile_imp hc
        simp only [Bool.not_eq_true'] at this
        unfold isNetlocStop at this
        constructor <;> (rintro rfl; simp at this)
  · exact ⟨[], by simp, by intro c hc; simp at hc⟩

theorem pre_transfer {pre u2 core rest : Str}
    (happ : pre ++ u2 = core ++ rest)
    (hpre : noQH pre) (hcore : noQH core)
    (hrest : rest = [] ∨ ∃ c t, rest = c :: t ∧ (c = '?' ∨ c = '#')) :
    ∃ core2, u2 = core2 ++ rest ∧ noQH core2 := by
  rcases hrest with rfl | ⟨c, t, rfl, hc⟩
  · refine ⟨u2, by simp, ?_⟩
    intro d hd
    have hmem : d ∈ pre ++ u2 := List.mem_append.mpr (Or.inr hd)
    rw [happ] at hmem
    exact hcore d (by simpa using hmem)
  · have hle : pre.length ≤ core.length := by
      by_contra hgt
      push_neg at hgt
      have hpre_eq : pre = (core ++ c :: t).take pre.length := by
        rw [← happ]; exact (List.take_left pre u2).symm
      have hmem : c ∈ pre := by
        rw [hpre_eq, List.take_append_eq_append_take]
        have h2 : c ∈ (c :: t).take (pre.length - core.length) := by
          cases hn : pre.length - core.length with
          | zero => omega
          | succ k => simp [List.take]
        exact List.mem_append.mpr (Or.inr h2)
      rcases hc with rfl | rfl
      · exact (hpre _ hmem).1 rfl
      · exact (hpre _ hmem).2 rfl
    refine ⟨core.drop pre.length, ?_, ?_⟩
    · have hcore_eq : core = pre ++ core.drop pre.length := by
        have h1 : pre = core.take pre.length := by
          have h2 : pre = (core ++ c :: t).take pre.length := by
            rw [← happ]; exact (List.take_left pre u2).symm
          rw [h2, List.take_append_eq_append_take]
          have : pre.length - core.length = 0 := by omega
          simp [this]
        conv_lhs => rw [← List.take_append_drop pre.length core]
        rw [← h1]
      have : pre ++ u2 = pre ++ (core.drop pre.length ++ c :: t) := by
        rw [← List.append_assoc, ← hcore_eq, happ]
      exact List.append_cancel_left this
    · intro d hd
      exact hcore d ((List.drop_sublist pre.length core).mem hd)

theorem fragSplit_clean {pre : Str} (h : ∀ c ∈ pre, (!(c == '#')) = true) :
    fragSplit pre = (pre, []) := by
  unfold fragSplit
  split
  · rfl
  next x after heq =>
    rw [List.dropWhile_eq_nil_iff.mpr h] at heq
    simp at heq

theorem fragSplit_mark {pre f : Str} (h : ∀ c ∈ pre, (!(c == '#')) = true) :
    fragSplit (pre ++ '#' :: f) = (pre, f) := by
  unfold fragSplit
  split
  next heq =>
    rw [dropWhile_stop _ '#' f h (by simp)] at heq
    simp at heq
  next x after heq =>
    rw [dropWhile_stop _ '#' f h (by simp)] at heq
    rw [takeWhile_stop _ '#' f h (by simp)]
    simp only [List.cons.injEq] at heq
    rw [heq.2]

theorem querySplit_clean {pre : Str} (h : ∀ c ∈ pre, (!(c == '?')) = true) :
    querySplit pre = (pre, []) := by
  unfold querySplit
  split
  · rfl
  next x after heq =>
    rw [List.dropWhile_eq_nil_iff.mpr h] at heq
    simp at heq

theorem querySplit_mark {pre q : Str} (h : ∀ c ∈ pre, (!(c == '?')) = true) :
    querySplit (pre ++ '?' :: q) = (pre, q) := by
  unfold querySplit
  split
  next heq =>
    rw [dropWhile_stop _ '?' q h (by simp)] at heq
    simp at heq
  next x after heq =>
    rw [dropWhile_stop _ '?' q h (by simp)] at heq
    rw [takeWhile_stop _ '?' q h (by simp)]
    simp only [List.cons.injEq] at heq
    rw [heq.2]

theorem fq_query (core q f : Str) (hcore : noQH core) (hq : ∀ c ∈ q, c ≠ '#') :
    (querySplit (fragSplit
      ((core ++ (if q = [] then [] else '?' :: q)) ++ (if f = [] then [] else '#' :: f))).1).2
      = q := by
  have hnoq : ∀ c ∈ core, (!(c == '?')) = true := by
    intro c hc; simp [(hcore c hc).1]
  have hnoh : ∀ c ∈ core ++ (if q = [] then [] else '?' :: q), (!(c == '#')) = true := by
    intro c hc
    rcases List.mem_append.mp hc with hc1 | hc2
    · simp [(hcore c hc1).2]
    · by_cases hqe : q = []
      · simp [hqe] at hc2
      · rw [if_neg hqe] at hc2
        rcases List.mem_cons.mp hc2 with rfl | hc3
        · simp
        · simp [hq c hc3]
  have hfrag : (fragSplit
      ((core ++ (if q = [] then [] else '?' :: q)) ++ (if f = [] then [] else '#' :: f))).1
      = core ++ (if q = [] then [] else '?' :: q) := by
    by_cases hfe : f = []
    · rw [if_pos hfe, List.append_nil, fragSplit_clean hnoh]
    · rw [if_neg hfe, fragSplit_mark hnoh]
  rw [hfrag]
  by_cases hqe : q = []
  · rw [if_pos hqe, List.append_nil, querySplit_clean hnoq, hqe]
  · rw [if_neg hqe, querySplit_mark hnoq]

theorem ite_append_mark (b x : Str) (m : Char) :
    (if ¬ x = [] then b ++ m :: x else b) = b ++ (if x = [] then [] else m :: x) := by
  by_cases h : x = [] <;> simp [h]

theorem urlunsplit_decomp (s n p q f : Str) :
    urlunsplit s n p q f =
      ((urlunsplit s n p [] []) ++ (if q = [] then [] else '?' :: q)) ++
        (if f = [] then [] else '#' :: f) := by
  by_cases hq : q = [] <;> by_cases hf : f = [] <;>
    simp [urlunsplit, hq, hf]

theorem urlunsplit_core_mem (s n p : Str) (c : Char)
    (hc : c ∈ urlunsplit s n p [] []) :
    c ∈ s ∨ c ∈ n ∨ c ∈ p ∨ c = '/' ∨ c = ':' := by
  simp only [urlunsplit] at hc
  repeat' split at hc
  all_goals (try simp only [List.mem_append, List.mem_cons, List.not_mem_nil] at hc)
  all_goals tauto

/-- Query recovery: parsing the string assembled by `urlunsplit` returns
exactly the query that was assembled in, for any default scheme, provided
the components satisfy the invariants that `urlsplit` outputs always
satisfy. -/
theorem urlsplit_unsplit_query (s n p q f d : Str)
    (hs : ∀ c ∈ s, isSchemeChar c = true)
    (hn : noQH n) (hncl : cleanChars n)
    (hp : noQH p) (hpcl : cleanChars p)
    (hqh : ∀ c ∈ q, c ≠ '#') (hqcl : cleanChars q)
    (hfcl : cleanChars f) :
    (urlsplit (urlunsplit s n p q f) d).query = q := by
  set A := urlunsplit s n p q f with hAdef
  set core := urlunsplit s n p [] [] with hcoredef
  have hA : A = (core ++ (if q = [] then [] else '?' :: q)) ++
      (if f = [] then [] else '#' :: f) := urlunsplit_decomp s n p q f
  have hcore : noQH core := by
    intro c hc
    rcases urlunsplit_core_mem s n p c hc with h | h | h | rfl | rfl
    · exact ⟨(isSchemeChar_props (hs c h)).1, (isSchemeChar_props (hs c h)).2.1⟩
    · exact hn c h
    · exact hp c h
    · exact ⟨by decide, by decide⟩
    · exact ⟨by decide, by decide⟩
  have hcorecl : cleanChars core := by
    intro c hc
    rcases urlunsplit_core_mem s n p c hc with h | h | h | rfl | rfl
    · exact (isSchemeChar_props (hs c h)).2.2
    · exact hncl c h
    · exact hpcl c h
    · exact ⟨by decide, by decide, by decide⟩
    · exact ⟨by decide, by decide, by decide⟩
  have hclA : cleanChars A := by
    rw [hA]
    intro c hc
    rcases List.mem_append.mp hc with hc1 | hc2
    · rcases List.mem_append.mp hc1 with hc3 | hc4
      · exact hcorecl c hc3
      · by_cases hqe : q = []
        · simp [hqe] at hc4
        · rw [if_neg hqe] at hc4
          rcases List.mem_cons.mp hc4 with rfl | hc5
          · exact ⟨by decide, by decide, by decide⟩
          · exact hqcl c hc5
    · by_cases hfe : f = []
      · simp [hfe] at hc2
      · rw [if_neg hfe] at hc2
        rcases List.mem_cons.mp hc2 with rfl | hc5
        · exact ⟨by decide, by decide, by decide⟩
        · exact hfcl c hc5
  -- the preprocessing reduces to the leading strip
  have hclean : cleanUrl A = A.dropWhile isC0Space := by
    unfold cleanUrl lstripC0 removeTabCrLf
    apply List.filter_eq_self.mpr
    intro c hc
    have hcA : c ∈ A := mem_of_mem_dropWhile hc
    have h3 := hclA c hcA
    simp [h3.1, h3.2.1, h3.2.2]
  -- the stripped prefix is free of the delimiters
  have hstrip : A = A.takeWhile isC0Space ++ A.dropWhile isC0Space := by
    symm
    apply List.takeWhile_append_dropWhile
  have hpre0 : noQH (A.takeWhile isC0Space) := by
    intro c hc
    exact isC0Space_props (List.mem_takeWhile_imp hc)
  -- the tail decomposition, pushed through the strip and the two splits
  have hrest : (if q = [] then [] else '?' :: q) ++ (if f = [] then [] else '#' :: f) = []
      ∨ ∃ c t, (if q = [] then [] else '?' :: q) ++ (if f = [] then [] else '#' :: f) = c :: t
          ∧ (c = '?' ∨ c = '#') := by
    by_cases hqe : q = []
    · by_cases hfe : f = []
      · left; simp [hqe, hfe]
      · right; exact ⟨'#', f, by simp [hqe, hfe], Or.inr rfl⟩
    · right; exact ⟨'?', q ++ (if f = [] then [] else '#' :: f), by simp [hqe], Or.inl rfl⟩
  have hA2 : A = core ++ ((if q = [] then [] else '?' :: q) ++
      (if f = [] then [] else '#' :: f)) := by
    rw [hA, List.append_assoc]
  obtain ⟨c1, hc1, hc1q⟩ := by
    refine @pre_transfer (A.takeWhile isC0Space) (A.dropWhile isC0Space) core _
      ?_ hpre0 hcore hrest
    rw [← hstrip, ← hA2]
  obtain ⟨pre1, hpre1, hpre1q⟩ := schemeSplit_decomp (A.dropWhile isC0Space)
  obtain ⟨c2, hc2, hc2q⟩ := by
    refine @pre_transfer pre1 ((schemeSplit (A.dropWhile isC0Space)).2) c1 _
      ?_ hpre1q hc1q hrest
    rw [← hpre1, hc1]
  obtain ⟨pre2, hpre2, hpre2q⟩ := netlocSplit_decomp ((schemeSplit (A.dropWhile isC0Space)).2)
  obtain ⟨c3, hc3, hc3q⟩ := by
    refine @pre_transfer pre2 ((netlocSplit ((schemeSplit (A.dropWhile isC0Space)).2)).2) c2 _
      ?_ hpre2q hc2q hrest
    rw [← hpre2, hc2]
  show (urlsplit A d).query = q
  unfold urlsplit
  simp only [hclean]
  rw [hc3, ← List.append_assoc]
  exact fq_query c3 q f hc3q hqh

/-! ## Lemmas: invariants of the components returned by urlsplit and urlparse -/

theorem char_le_iff (a b : Char) : a ≤ b ↔ a.toNat ≤ b.toNat := by
  rw [Char.le_def]; exact Iff.rfl

theorem charOfNat_toNat {n : Nat} (h : n < 0xd800) : (Char.ofNat n).toNat = n := by
  unfold Char.ofNat
  split
  · rfl
  · next hn => exact absurd (Or.inl h) hn

theorem pyLowerChar_scheme {c : Char} (h : isSchemeChar c = true) :
    isSchemeChar (pyLowerChar c) = true := by
  unfold pyLowerChar
  split
  · next hAZ =>
    have h1 : 65 ≤ c.toNat := (char_le_iff 'A' c).mp hAZ.1
    have h2 : c.toNat ≤ 90 := (char_le_iff c 'Z').mp hAZ.2
    have hv : (Char.ofNat (c.toNat + 32)).toNat = c.toNat + 32 := charOfNat_toNat (by omega)
    have halpha : isAsciiAlphaCh (Char.ofNat (c.toNat + 32)) = true := by
      unfold isAsciiAlphaCh
      simp only [Bool.or_eq_true, Bool.and_eq_true, decide_eq_true_eq]
      left
      constructor
      · rw [char_le_iff, hv, show ('a').toNat = 97 from rfl]; omega
      · rw [char_le_iff, hv, show ('z').toNat = 122 from rfl]; omega
    unfold isSchemeChar
    simp [halpha]
  · exact h

theorem querySplit_fst_sub {v : Str} {c : Char} (h : c ∈ (querySplit v).1) : c ∈ v := by
  unfold querySplit at h
  split at h
  · exact h
  · exact mem_of_mem_takeWhile h

theorem querySplit_snd_sub {v : Str} {c : Char} (h : c ∈ (querySplit v).2) : c ∈ v := by
  unfold querySplit at h
  split at h
  · simp at h
  · next x after heq =>
    have h2 : c ∈ x :: after := List.mem_cons_of_mem x h
    rw [← heq] at h2
    exact mem_of_mem_dropWhile h2

theorem querySplit_fst_noQ {v : Str} {c : Char} (h : c ∈ (querySplit v).1) : c ≠ '?' := by
  unfold querySplit at h
  split at h
  · next heq =>
    have := List.dropWhile_eq_nil_iff.mp heq c h
    simpa using this
  · have := List.mem_takeWhile_imp h
    simpa using this

theorem fragSplit_fst_sub {v : Str} {c : Char} (h : c ∈ (fragSplit v).1) : c ∈ v := by
  unfold fragSplit at h
  split at h
  · exact h
  · exact mem_of_mem_takeWhile h

theorem fragSplit_snd_sub {v : Str} {c : Char} (h : c ∈ (fragSplit v).2) : c ∈ v := by
  unfold fragSplit at h
  split at h
  · simp at h
  · next x after heq =>
    have h2 : c ∈ x :: after := List.mem_cons_of_mem x h
    rw [← heq] at h2
    exact mem_of_mem_dropWhile h2

theorem fragSplit_fst_noH {v : Str} {c : Char} (h : c ∈ (fragSplit v).1) : c ≠ '#' := by
  unfold fragSplit at h
  split at h
  · next heq =>
    have := List.dropWhile_eq_nil_iff.mp heq c h
    simpa using this
  · have := List.mem_takeWhile_imp h
    simpa using this

theorem netlocSplit_snd_sub {v : Str} {c : Char} (h : c ∈ (netlocSplit v).2) : c ∈ v := by
  unfold netlocSplit at h
  split at h
  · exact (List.drop_sublist 2 v).mem (mem_of_mem_dropWhile h)
  · exact h

theorem netlocSplit_fst_sub {v : Str} {c : Char} (h : c ∈ (netlocSplit v).1) : c ∈ v := by
  unfold netlocSplit at h
  split at h
  · exact (List.drop_sublist 2 v).mem (mem_of_mem_takeWhile h)
  · simp at h

theorem netlocSplit_fst_props {v : Str} {c : Char} (h : c ∈ (netlocSplit v).1) :
    c ≠ '/' ∧ c ≠ '?' ∧ c ≠ '#' := by
  unfold netlocSplit at h
  split at h
  · have := List.mem_takeWhile_imp h
    simp only [Bool.not_eq_true'] at this
    unfold isNetlocStop at this
    refine ⟨?_, ?_, ?_⟩ <;> (rintro rfl; simp at this)
  · simp at h

theorem schemeSplit_snd_sub {v : Str} {c : Char} (h : c ∈ (schemeSplit v).2) : c ∈ v := by
  obtain ⟨pre, hv, _⟩ := schemeSplit_decomp v
  rw [hv]
  exact List.mem_append.mpr (Or.inr h)

theorem schemeSplit_fst_scheme {v : Str} {c : Char} (h : c ∈ (schemeSplit v).1) :
    isSchemeChar c = true := by
  unfold schemeSplit at h
  split at h
  · simp at h
  · split at h
    · next hcond =>
      simp only at h
      rcases List.mem_map.mp h with ⟨a, ha, rfl⟩
      exact pyLowerChar_scheme (List.all_eq_true.mp hcond.2.2 a ha)
    · simp at h

theorem cleanUrl_cleanChars (u : Str) : cleanChars (cleanUrl u) := by
  intro c hc
  unfold cleanUrl removeTabCrLf at hc
  have := List.of_mem_filter hc
  simp only [Bool.not_eq_true', Bool.or_eq_false_iff, beq_eq_false_iff_ne] at this
  exact ⟨this.1.1, this.1.2, this.2⟩

theorem cleanScheme_sub {d : Str} {c : Char} (h : c ∈ cleanScheme d) : c ∈ d := by
  unfold cleanScheme stripC0 removeTabCrLf at h
  have h1 := List.mem_of_mem_filter h
  rw [List.mem_reverse] at h1
  have h2 := mem_of_mem_dropWhile h1
  rw [List.mem_reverse] at h2
  exact mem_of_mem_dropWhile h2

theorem urlsplit_conds (u d : Str) (hd : ∀ c ∈ d, isSchemeChar c = true) :
    (∀ c ∈ (urlsplit u d).scheme, isSchemeChar c = true) ∧
    (noQH (urlsplit u d).netloc ∧ cleanChars (urlsplit u d).netloc) ∧
    (noQH (urlsplit u d).path ∧ cleanChars (urlsplit u d).path) ∧
    ((∀ c ∈ (urlsplit u d).query, c ≠ '#') ∧ cleanChars (urlsplit u d).query) ∧
    cleanChars (urlsplit u d).fragment := by
  have hcl := cleanUrl_cleanChars u
  unfold urlsplit
  simp only
  refine ⟨?_, ⟨?_, ?_⟩, ⟨?_, ?_⟩, ⟨?_, ?_⟩, ?_⟩
  · intro c hc
    split at hc
    · exact hd c (cleanScheme_sub hc)
    · exact schemeSplit_fst_scheme hc
  · intro c hc
    have h1 := netlocSplit_fst_props hc
    exact ⟨h1.2.1, h1.2.2⟩
  · intro c hc
    exact hcl c (schemeSplit_snd_sub (netlocSplit_fst_sub hc))
  · intro c hc
    refine ⟨querySplit_fst_noQ hc, fragSplit_fst_noH (querySplit_fst_sub hc)⟩
  · intro c hc
    exact hcl c (schemeSplit_snd_sub (netlocSplit_snd_sub
      (fragSplit_fst_sub (querySplit_fst_sub hc))))
  · intro c hc
    exact fragSplit_fst_noH (querySplit_snd_sub hc)
  · intro c hc
    exact hcl c (schemeSplit_snd_sub (netlocSplit_snd_sub
      (fragSplit_fst_sub (querySplit_snd_sub hc))))
  · intro c hc
    exact hcl c (schemeSplit_snd_sub (netlocSplit_snd_sub (fragSplit_snd_sub hc)))

theorem splitParams_fst_sub {v : Str} {c : Char} (h : c ∈ (splitParams v).1) : c ∈ v := by
  unfold splitParams at h
  split at h
  · split at h
    · exact h
    · exact (List.take_sublist _ v).mem h
  · split at h
    · exact h
    · exact (List.take_sublist _ v).mem h

theorem splitParams_snd_sub {v : Str} {c : Char} (h : c ∈ (splitParams v).2) : c ∈ v := by
  unfold splitParams at h
  split at h
  · split at h
    · simp at h
    · exact (List.drop_sublist _ v).mem h
  · split at h
    · simp at h
    · exact (List.drop_sublist _ v).mem h

theorem urlparse_conds (u d : Str) (hd : ∀ c ∈ d, isSchemeChar c = true) :
    (∀ c ∈ (urlparse u d).scheme, isSchemeChar c = true) ∧
    (noQH (urlparse u d).netloc ∧ cleanChars (urlparse u d).netloc) ∧
    (noQH (urlparse u d).path ∧ cleanChars (urlparse u d).path) ∧
    (noQH (urlparse u d).params ∧ cleanChars (urlparse u d).params) ∧
    ((∀ c ∈ (urlparse u d).query, c ≠ '#') ∧ cleanChars (urlparse u d).query) ∧
    cleanChars (urlparse u d).fragment := by
  obtain ⟨hs, hn, hp, hq, hf⟩ := urlsplit_conds u d hd
  unfold urlparse
  split
  · simp only
    exact ⟨hs, hn,
      ⟨fun c hc => hp.1 c (splitParams_fst_sub hc),
       fun c hc => hp.2 c (splitParams_fst_sub hc)⟩,
      ⟨fun c hc => hp.1 c (splitParams_snd_sub hc),
       fun c hc => hp.2 c (splitParams_snd_sub hc)⟩,
      hq, hf⟩
  · simp only
    exact ⟨hs, hn, hp, ⟨fun c hc => by simp at hc, fun c hc => by simp at hc⟩, hq, hf⟩

/-- Query recovery through `urlunparse`. -/
theorem urlsplit_unparse_query (s n p pa q f d : Str)
    (hs : ∀ c ∈ s, isSchemeChar c = true)
    (hn : noQH n) (hncl : cleanChars n)
    (hp : noQH p) (hpcl : cleanChars p)
    (hpa : noQH pa) (hpacl : cleanChars pa)
    (hqh : ∀ c ∈ q, c ≠ '#') (hqcl : cleanChars q)
    (hfcl : cleanChars f) :
    (urlsplit (urlunparse s n p pa q f) d).query = q := by
  unfold urlunparse
  by_cases hpae : pa = []
  · rw [if_neg (by simp [hpae])]
    exact urlsplit_unsplit_query s n p q f d hs hn hncl hp hpcl hqh hqcl hfcl
  · rw [if_pos (by simp [hpae])]
    refine urlsplit_unsplit_query s n (p ++ ';' :: pa) q f d hs hn hncl ?_ ?_ hqh hqcl hfcl
    · intro c hc
      rcases List.mem_append.mp hc with h1 | h2
      · exact hp c h1
      · rcases List.mem_cons.mp h2 with rfl | h3
        · exact ⟨by decide, by decide⟩
        · exact hpa c h3
    · intro c hc
      rcases List.mem_append.mp hc with h1 | h2
      · exact hpcl c h1
      · rcases List.mem_cons.mp h2 with rfl | h3
        · exact ⟨by decide, by decide, by decide⟩
        · exact hpacl c h3

/-! ## Lemmas: character sets of encoded queries and joined paths -/

theorem char_valid_lt (c : Char) : c.toNat < 0x110000 := by
  have h := c.valid
  rcases h with h1 | h2
  · have : c.val.toNat < 55296 := h1
    calc c.toNat = c.val.toNat := rfl
    _ < 0x110000 := by omega
  · exact h2.2

theorem utf8Bytes_lt {c : Char} {b : Nat} (h : b ∈ utf8Bytes c) : b < 256 := by
  have hv := char_valid_lt c
  unfold utf8Bytes at h
  split at h
  · simp only [List.mem_cons, List.not_mem_nil, or_false] at h
    omega
  · split at h
    · simp only [List.mem_cons, List.not_mem_nil, or_false] at h
      rcases h with rfl | rfl <;> omega
    · split at h
      · simp only [List.mem_cons, List.not_mem_nil, or_false] at h
        rcases h with rfl | rfl | rfl <;> omega
      · simp only [List.mem_cons, List.not_mem_nil, or_false] at h
        rcases h with rfl | rfl | rfl | rfl <;> omega

theorem isAlwaysSafe_props {c : Char} (h : isAlwaysSafe c = true) :
    c ≠ '?' ∧ c ≠ '#' ∧ c ≠ '\t' ∧ c ≠ '\r' ∧ c ≠ '\n' ∧ c ≠ '&' ∧ c ≠ '=' ∧
      c ≠ '+' ∧ c ≠ '%' := by
  refine ⟨?_, ?_, ?_, ?_, ?_, ?_, ?_, ?_, ?_⟩ <;> (rintro rfl; exact absurd h (by decide))

theorem charOfNat_ne {m : Nat} (hm : m < 0xd800) {c : Char} (hne : c.toNat ≠ m) :
    Char.ofNat m ≠ c := by
  intro he
  apply hne
  rw [← he, charOfNat_toNat hm]

theorem hexUpper_props {n : Nat} (h : n < 16) :
    hexUpper n ≠ '?' ∧ hexUpper n ≠ '#' ∧ hexUpper n ≠ '\t' ∧ hexUpper n ≠ '\r' ∧
      hexUpper n ≠ '\n' ∧ hexUpper n ≠ '&' ∧ hexUpper n ≠ '=' := by
  unfold hexUpper
  split
  · next h10 =>
    refine ⟨?_, ?_, ?_, ?_, ?_, ?_, ?_⟩ <;>
      exact charOfNat_ne (by omega) (by
        first
          | (rw [show ('?').toNat = 63 from rfl]; omega)
          | (rw [show ('#').toNat = 35 from rfl]; omega)
          | (rw [show ('\t').toNat = 9 from rfl]; omega)
          | (rw [show ('\r').toNat = 13 from rfl]; omega)
          | (rw [show ('\n').toNat = 10 from rfl]; omega)
          | (rw [show ('&').toNat = 38 from rfl]; omega)
          | (rw [show ('=').toNat = 61 from rfl]; omega))
  · refine ⟨?_, ?_, ?_, ?_, ?_, ?_, ?_⟩ <;>
      exact charOfNat_ne (by omega) (by
        first
          | (rw [show ('?').toNat = 63 from rfl]; omega)
          | (rw [show ('#').toNat = 35 from rfl]; omega)
          | (rw [show ('\t').toNat = 9 from rfl]; omega)
          | (rw [show ('\r').toNat = 13 from rfl]; omega)
          | (rw [show ('\n').toNat = 10 from rfl]; omega)
          | (rw [show ('&').toNat = 38 from rfl]; omega)
          | (rw [show ('=').toNat = 61 from rfl]; omega))

theorem quote_plus_chars {s : Str} {x : Char} (h : x ∈ quote_plus s) :
    x ≠ '?' ∧ x ≠ '#' ∧ x ≠ '\t' ∧ x ≠ '\r' ∧ x ≠ '\n' ∧ x ≠ '&' ∧ x ≠ '=' := by
  induction s with
  | nil => simp [quote_plus] at h
  | cons c rest ih =>
    have hstep : quote_plus (c :: rest) = quotePlusChar c ++ quote_plus rest := rfl
    rw [hstep] at h
    rcases List.mem_append.mp h with h1 | h2
    · unfold quotePlusChar at h1
      split at h1
      · simp at h1
        subst h1
        exact ⟨by decide, by decide, by decide, by decide, by decide, by decide, by decide⟩
      · split at h1
        · next hsafe =>
          simp at h1
          subst h1
          have := isAlwaysSafe_props hsafe
          exact ⟨this.1, this.2.1, this.2.2.1, this.2.2.2.1, this.2.2.2.2.1,
            this.2.2.2.2.2.1, this.2.2.2.2.2.2.1⟩
        · clear h
          have hlt : ∀ b ∈ utf8Bytes c, b < 256 := fun b hb => utf8Bytes_lt hb
          revert h1
          revert hlt
          generalize utf8Bytes c = bytes
          intro hlt h1
          induction bytes with
          | nil => simp at h1
          | cons b bs ih2 =>
            simp only [List.foldr_cons, List.mem_cons] at h1
            have hb : b < 256 := hlt b (by simp)
            rcases h1 with rfl | rfl | rfl | h4
            · exact ⟨by decide, by decide, by decide, by decide, by decide, by decide,
                by decide⟩
            · exact hexUpper_props (by omega)
            · exact hexUpper_props (by omega)
            · exact ih2 (fun b2 hb2 => hlt b2 (List.mem_cons_of_mem b hb2)) h4
    · exact ih h2

theorem joinCh_mem {ch x : Char} {parts : List Str} (h : x ∈ joinCh ch parts) :
    x = ch ∨ ∃ p ∈ parts, x ∈ p := by
  induction parts with
  | nil => simp [joinCh] at h
  | cons p rest ih =>
    cases rest with
    | nil =>
      right; exact ⟨p, by simp, by simpa [joinCh] using h⟩
    | cons q rest2 =>
      rw [show joinCh ch (p :: q :: rest2) = p ++ ch :: joinCh ch (q :: rest2) from rfl] at h
      rcases List.mem_append.mp h with h1 | h2
      · right; exact ⟨p, by simp, h1⟩
      · rcases List.mem_cons.mp h2 with rfl | h3
        · left; rfl
        · rcases ih h3 with h4 | ⟨p2, hp2, hx⟩
          · left; exact h4
          · right; exact ⟨p2, by simp [hp2], hx⟩

theorem urlencode_chars {d : QDict} {x : Char} (h : x ∈ urlencode d) :
    x ≠ '?' ∧ x ≠ '#' ∧ x ≠ '\t' ∧ x ≠ '\r' ∧ x ≠ '\n' := by
  unfold urlencode at h
  rcases joinCh_mem h with rfl | ⟨p, hp, hx⟩
  · exact ⟨by decide, by decide, by decide, by decide, by decide⟩
  · rcases List.mem_join.mp (by exact hp) with ⟨grp, hgrp, hpgrp⟩
    rcases List.mem_map.mp hgrp with ⟨kv, _, rfl⟩
    rcases List.mem_map.mp hpgrp with ⟨v, _, rfl⟩
    rcases List.mem_append.mp hx with h1 | h2
    · have := quote_plus_chars h1
      exact ⟨this.1, this.2.1, this.2.2.1, this.2.2.2.1, this.2.2.2.2.1⟩
    · rcases List.mem_cons.mp h2 with rfl | h3
      · exact ⟨by decide, by decide, by decide, by decide, by decide⟩
      · have := quote_plus_chars h3
        exact ⟨this.1, this.2.1, this.2.2.1, this.2.2.2.1, this.2.2.2.2.1⟩

theorem splitOnCh_ne_nil (ch : Char) (s : Str) : splitOnCh ch s ≠ [] := by
  cases s with
  | nil => simp [splitOnCh]
  | cons x rest =>
    unfold splitOnCh
    split
    · simp
    · split <;> simp

theorem splitOnCh_mem {ch : Char} {s part : Str} {x : Char}
    (hpart : part ∈ splitOnCh ch s) (hx : x ∈ part) : x ∈ s := by
  induction s generalizing part with
  | nil =>
    simp [splitOnCh] at hpart
    subst hpart
    simp at hx
  | cons c rest ih =>
    unfold splitOnCh at hpart
    split at hpart
    · rcases List.mem_cons.mp hpart with rfl | h2
      · simp at hx
      · exact List.mem_cons_of_mem c (ih h2 hx)
    · split at hpart
      · next heq => exact absurd heq (splitOnCh_ne_nil ch rest)
      · next h t heq =>
        rcases List.mem_cons.mp hpart with rfl | h2
        · rcases List.mem_cons.mp hx with rfl | h3
          · simp
          · have hh : h ∈ splitOnCh ch rest := by rw [heq]; simp
            exact List.mem_cons_of_mem c (ih hh h3)
        · have ht : part ∈ splitOnCh ch rest := by rw [heq]; simp [h2]
          exact List.mem_cons_of_mem c (ih ht hx)

theorem getLastD_mem_cons (x : Str) (xs : List Str) : (x :: xs).getLastD [] ∈ x :: xs := by
  induction xs generalizing x with
  | nil => simp
  | cons y ys ih =>
    have : ((x :: y :: ys).getLastD []) = ((y :: ys).getLastD []) := by
      simp [List.getLastD]
    rw [this]
    exact List.mem_cons_of_mem x (ih y)

theorem keepEndsFilter_mem {l : List Str} {part : Str} (h : part ∈ keepEndsFilter l) :
    part ∈ l := by
  unfold keepEndsFilter at h
  split at h
  · exact h
  · exact h
  · next a b rest =>
    rcases List.mem_cons.mp h with rfl | h2
    · simp
    · rcases List.mem_append.mp h2 with h3 | h4
      · have h5 := List.mem_of_mem_filter h3
        exact List.mem_cons_of_mem a (List.mem_of_mem_dropLast h5)
      · simp at h4
        subst h4
        exact List.mem_cons_of_mem a (getLastD_mem_cons b rest)

theorem resolveFold_mem {segs : List Str} {acc : List Str} {part : Str}
    (h : part ∈ segs.foldl resolveStep acc) : part ∈ acc ∨ part ∈ segs := by
  induction segs generalizing acc with
  | nil => simp at h; exact Or.inl h
  | cons s rest ih =>
    simp only [List.foldl_cons] at h
    rcases ih h with h1 | h2
    · unfold resolveStep at h1
      split at h1
      · exact Or.inl (List.mem_of_mem_dropLast h1)
      · split at h1
        · exact Or.inl h1
        · rcases List.mem_append.mp h1 with h3 | h4
          · exact Or.inl h3
          · simp at h4; subst h4; right; simp
    · right; exact List.mem_cons_of_mem s h2

/-! ## The query of a joined URL -/

theorem urlsplit_query_indep (u d : Str) : (urlsplit u d).query = (urlsplit u []).query := rfl

theorem urlparse_query_eq (u d : Str) : (urlparse u d).query = queryOf u := by
  unfold urlparse
  split <;> exact urlsplit_query_indep u d

theorem mem_ite_list {α : Type} {A : Prop} [Decidable A] {l1 l2 : List α} {a : α}
    (h : a ∈ if A then l1 else l2) : a ∈ l1 ∨ a ∈ l2 := by
  split at h
  · exact Or.inl h
  · exact Or.inr h

set_option maxHeartbeats 4000000 in
/-- The central dichotomy: whatever branch `urljoin` takes, the query of its
result is the query of the url or the query of the base. -/
theorem urljoin_query (base url : Str) :
    queryOf (urljoin base url) = queryOf url ∨
    queryOf (urljoin base url) = queryOf base := by
  have hbd : ∀ c ∈ ([] : Str), isSchemeChar c = true := by intro c hc; simp at hc
  obtain ⟨hbs, hbn, hbp, hbpa, hbq, hbf⟩ := urlparse_conds base [] hbd
  obtain ⟨hrs, hrn, hrp, hrpa, hrq, hrf⟩ :=
    urlparse_conds url (urlparse base []).scheme hbs
  simp only [urljoin]
  split
  · left; rfl
  split
  · right; rfl
  split
  · left; rfl
  split
  · -- absolute netloc in the url: urlunparse of the url components
    left
    unfold queryOf
    rw [urlsplit_unparse_query _ _ _ _ _ _ _ hrs hrn.1 hrn.2 hrp.1 hrp.2 hrpa.1 hrpa.2
      hrq.1 hrq.2 hrf]
    exact urlparse_query_eq url _
  split
  · -- empty path and params: take the base path, maybe the base query
    have hnet1 : noQH (if (urlparse url (urlparse base []).scheme).scheme ∈ usesNetloc
        then (urlparse base []).netloc else (urlparse url (urlparse base []).scheme).netloc) := by
      split
      · exact hbn.1
      · exact hrn.1
    have hnet2 : cleanChars (if (urlparse url (urlparse base []).scheme).scheme ∈ usesNetloc
        then (urlparse base []).netloc else (urlparse url (urlparse base []).scheme).netloc) := by
      split
      · exact hbn.2
      · exact hrn.2
    have hqc1 : ∀ c ∈ (if (urlparse url (urlparse base []).scheme).query = []
        then (urlparse base []).query else (urlparse url (urlparse base []).scheme).query),
        c ≠ '#' := by
      split
      · exact hbq.1
      · exact hrq.1
    have hqc2 : cleanChars (if (urlparse url (urlparse base []).scheme).query = []
        then (urlparse base []).query else (urlparse url (urlparse base []).scheme).query) := by
      split
      · exact hbq.2
      · exact hrq.2
    unfold queryOf
    rw [urlsplit_unparse_query _ _ _ _ _ _ _ hrs hnet1 hnet2 hbp.1 hbp.2 hbpa.1 hbpa.2
      hqc1 hqc2 hrf]
    split
    · right; exact urlparse_query_eq base []
    · left; exact urlparse_query_eq url _
  · -- merge of the two paths
    have hnet1 : noQH (if (urlparse url (urlparse base []).scheme).scheme ∈ usesNetloc
        then (urlparse base []).netloc else (urlparse url (urlparse base []).scheme).netloc) := by
      split
      · exact hbn.1
      · exact hrn.1
    have hnet2 : cleanChars (if (urlparse url (urlparse base []).scheme).scheme ∈ usesNetloc
        then (urlparse base []).netloc else (urlparse url (urlparse base []).scheme).netloc) := by
      split
      · exact hbn.2
      · exact hrn.2
    left
    unfold queryOf
    rw [urlsplit_unparse_query _ _ _ _ _ _ _ hrs hnet1 hnet2 ?hp1 ?hp2 hrpa.1 hrpa.2
      hrq.1 hrq.2 hrf]
    · exact urlparse_query_eq url _
    case hp1 =>
      intro x hx
      rcases mem_ite_list hx with hx1 | hx2
      · rcases List.mem_cons.mp hx1 with rfl | h2
        · exact ⟨by decide, by decide⟩
        · simp at h2
      · rcases joinCh_mem hx2 with rfl | ⟨part, hpart, hxp⟩
        · exact ⟨by decide, by decide⟩
        · have hseg : part ∈
              (if (urlparse url (urlparse base []).scheme).path.take 1 = ['/'] then
                splitOnCh '/' (urlparse url (urlparse base []).scheme).path
              else keepEndsFilter
                ((if ¬ (splitOnCh '/' (urlparse base []).path).getLastD [] = [] then
                    (splitOnCh '/' (urlparse base []).path).dropLast
                  else splitOnCh '/' (urlparse base []).path) ++
                  splitOnCh '/' (urlparse url (urlparse base []).scheme).path)) := by
            rcases mem_ite_list hpart with h3 | h4
            · rcases List.mem_append.mp h3 with h5 | h6
              · rcases resolveFold_mem h5 with h7 | h8
                · simp at h7
                · exact h8
              · simp at h6
                subst h6
                simp at hxp
            · rcases resolveFold_mem h4 with h7 | h8
              · simp at h7
              · exact h8
          rcases mem_ite_list hseg with h6 | h6
          · exact hrp.1 x (splitOnCh_mem h6 hxp)
          · have h7 := keepEndsFilter_mem h6
            rcases List.mem_append.mp h7 with h8 | h9
            · rcases mem_ite_list h8 with h10 | h10
              · exact hbp.1 x (splitOnCh_mem (List.mem_of_mem_dropLast h10) hxp)
              · exact hbp.1 x (splitOnCh_mem h10 hxp)
            · exact hrp.1 x (splitOnCh_mem h9 hxp)
    case hp2 =>
      intro x hx
      rcases mem_ite_list hx with hx1 | hx2
      · rcases List.mem_cons.mp hx1 with rfl | h2
        · exact ⟨by decide, by decide, by decide⟩
        · simp at h2
      · rcases joinCh_mem hx2 with rfl | ⟨part, hpart, hxp⟩
        · exact ⟨by decide, by decide, by decide⟩
        · have hseg : part ∈
              (if (urlparse url (urlparse base []).scheme).path.take 1 = ['/'] then
                splitOnCh '/' (urlparse url (urlparse base []).scheme).path
              else keepEndsFilter
                ((if ¬ (splitOnCh '/' (urlparse base []).path).getLastD [] = [] then
                    (splitOnCh '/' (urlparse base []).path).dropLast
                  else splitOnCh '/' (urlparse base []).path) ++
                  splitOnCh '/' (urlparse url (urlparse base []).scheme).path)) := by
            rcases mem_ite_list hpart with h3 | h4
            · rcases List.mem_append.mp h3 with h5 | h6
              · rcases resolveFold_mem h5 with h7 | h8
                · simp at h7
                · exact h8
              · simp at h6
                subst h6
                simp at hxp
            · rcases resolveFold_mem h4 with h7 | h8
              · simp at h7
              · exact h8
          rcases mem_ite_list hseg with h6 | h6
          · exact hrp.2 x (splitOnCh_mem h6 hxp)
          · have h7 := keepEndsFilter_mem h6
            rcases List.mem_append.mp h7 with h8 | h9
            · rcases mem_ite_list h8 with h10 | h10
              · exact hbp.2 x (splitOnCh_mem (List.mem_of_mem_dropLast h10) hxp)
              · exact hbp.2 x (splitOnCh_mem h10 hxp)
            · exact hrp.2 x (splitOnCh_mem h9 hxp)

/-! ## The quote and unquote round trip -/

set_option maxRecDepth 4096 in
theorem utf8Decode_cons (b : Nat) (bs : List Nat) :
    utf8Decode (b :: bs) =
      (if b < 0x80 then Char.ofNat b :: utf8Decode bs
      else if b < 0xC2 then replacementChar :: utf8Decode bs
      else if b < 0xE0 then
        match bs with
        | [] => [replacementChar]
        | b1 :: rest =>
          if isContByte b1 then Char.ofNat ((b - 0xC0) * 64 + (b1 - 0x80)) :: utf8Decode rest
          else replacementChar :: utf8Decode (b1 :: rest)
      else if b < 0xF0 then
        match bs with
        | [] => [replacementChar]
        | b1 :: rest =>
          if (if b = 0xE0 then 0xA0 else 0x80) ≤ b1 ∧ b1 < (if b = 0xED then 0xA0 else 0xC0) then
            match rest with
            | [] => [replacementChar]
            | b2 :: rest2 =>
              if isContByte b2 then
                Char.ofNat ((b - 0xE0) * 4096 + (b1 - 0x80) * 64 + (b2 - 0x80)) :: utf8Decode rest2
              else replacementChar :: utf8Decode (b2 :: rest2)
          else replacementChar :: utf8Decode (b1 :: rest)
      else if b < 0xF5 then
        match bs with
        | [] => [replacementChar]
        | b1 :: rest =>
          if (if b = 0xF0 then 0x90 else 0x80) ≤ b1 ∧ b1 < (if b = 0xF4 then 0x90 else 0xC0) then
            match rest with
            | [] => [replacementChar]
            | b2 :: rest2 =>
              if isContByte b2 then
                match rest2 with
                | [] => [replacementChar]
                | b3 :: rest3 =>
                  if isContByte b3 then
                    Char.ofNat ((b - 0xF0) * 262144 + (b1 - 0x80) * 4096 +
                      (b2 - 0x80) * 64 + (b3 - 0x80)) :: utf8Decode rest3
                  else replacementChar :: utf8Decode (b3 :: rest3)
              else replacementChar :: utf8Decode (b2 :: rest2)
          else replacementChar :: utf8Decode (b1 :: rest)
      else replacementChar :: utf8Decode bs) := by
  rw [utf8Decode.eq_def]

theorem utf8Decode_nil : utf8Decode [] = [] := by
  rw [utf8Decode.eq_def]

theorem char_valid_cases (c : Char) :
    c.toNat < 0xD800 ∨ (0xDFFF < c.toNat ∧ c.toNat < 0x110000) := by
  rcases c.valid with h1 | h2
  · left
    have : c.val.toNat < 55296 := h1
    exact this
  · right
    have h3 : 57343 < c.val.toNat := h2.1
    have h4 : c.val.toNat < 1114112 := h2.2
    exact ⟨h3, h4⟩

set_option maxRecDepth 8192 in
/-- Decoding the UTF-8 bytes of one char followed by anything yields that
char followed by the decoding of the rest. -/
theorem utf8Decode_bytes_append (c : Char) (bs : List Nat) :
    utf8Decode (utf8Bytes c ++ bs) = c :: utf8Decode bs := by
  have hval := char_valid_cases c
  unfold utf8Bytes
  by_cases h1 : c.toNat < 0x80
  · rw [if_pos h1]
    show utf8Decode (c.toNat :: bs) = c :: utf8Decode bs
    rw [utf8Decode_cons, if_pos h1, Char.ofNat_toNat]
  · rw [if_neg h1]
    by_cases h2 : c.toNat < 0x800
    · rw [if_pos h2]
      show utf8Decode ((0xC0 + c.toNat / 64) :: (0x80 + c.toNat % 64) :: bs)
          = c :: utf8Decode bs
      rw [utf8Decode_cons, if_neg (by omega), if_neg (by omega), if_pos (by omega)]
      try dsimp only
      rw [if_pos (by simp [isContByte]; omega)]
      have he : (0xC0 + c.toNat / 64 - 0xC0) * 64 + (0x80 + c.toNat % 64 - 0x80)
          = c.toNat := by omega
      rw [he, Char.ofNat_toNat]
    · rw [if_neg h2]
      by_cases h3 : c.toNat < 0x10000
      · rw [if_pos h3]
        show utf8Decode ((0xE0 + c.toNat / 4096) :: (0x80 + c.toNat / 64 % 64) ::
            (0x80 + c.toNat % 64) :: bs) = c :: utf8Decode bs
        rw [utf8Decode_cons, if_neg (by omega), if_neg (by omega), if_neg (by omega),
          if_pos (by omega)]
        try dsimp only
        have hcond : (if 0xE0 + c.toNat / 4096 = 0xE0 then 0xA0 else 0x80) ≤
            0x80 + c.toNat / 64 % 64 ∧ 0x80 + c.toNat / 64 % 64 <
            (if 0xE0 + c.toNat / 4096 = 0xED then 0xA0 else 0xC0) := by
          by_cases hE : c.toNat < 0x1000
          · rw [if_pos (by omega), if_neg (by omega)]
            omega
          · by_cases hD : 0xD000 ≤ c.toNat ∧ c.toNat < 0xE000
            · rw [if_neg (by omega), if_pos (by omega)]
              omega
            · rw [if_neg (by omega), if_neg (by omega)]
              omega
        rw [if_pos hcond]
        try dsimp only
        rw [if_pos (by simp [isContByte]; omega)]
        have he : (0xE0 + c.toNat / 4096 - 0xE0) * 4096 +
            (0x80 + c.toNat / 64 % 64 - 0x80) * 64 + (0x80 + c.toNat % 64 - 0x80)
            = c.toNat := by omega
        rw [he, Char.ofNat_toNat]
      · rw [if_neg h3]
        have h4 : c.toNat < 0x110000 := by omega
        show utf8Decode ((0xF0 + c.toNat / 262144) :: (0x80 + c.toNat / 4096 % 64) ::
            (0x80 + c.toNat / 64 % 64) :: (0x80 + c.toNat % 64) :: bs)
            = c :: utf8Decode bs
        rw [utf8Decode_cons, if_neg (by omega), if_neg (by omega), if_neg (by omega),
          if_neg (by omega), if_pos (by omega)]
        try dsimp only
        have hcond : (if 0xF0 + c.toNat / 262144 = 0xF0 then 0x90 else 0x80) ≤
            0x80 + c.toNat / 4096 % 64 ∧ 0x80 + c.toNat / 4096 % 64 <
            (if 0xF0 + c.toNat / 262144 = 0xF4 then 0x90 else 0xC0) := by
          by_cases hF0 : c.toNat < 0x40000
          · rw [if_pos (by omega), if_neg (by omega)]
            omega
          · by_cases hF4 : 0x100000 ≤ c.toNat
            · rw [if_neg (by omega), if_pos (by omega)]
              omega
            · rw [if_neg (by omega), if_neg (by omega)]
              omega
        rw [if_pos hcond]
        try dsimp only
        rw [if_pos (by simp [isContByte]; omega)]
        try dsimp only
        rw [if_pos (by simp [isContByte]; omega)]
        have he : (0xF0 + c.toNat / 262144 - 0xF0) * 262144 +
            (0x80 + c.toNat / 4096 % 64 - 0x80) * 4096 +
            (0x80 + c.toNat / 64 % 64 - 0x80) * 64 + (0x80 + c.toNat % 64 - 0x80)
            = c.toNat := by omega
        rw [he, Char.ofNat_toNat]

set_option maxRecDepth 8192 in
theorem utf8Decode_encode (s : Str) : utf8Decode (utf8Encode s) = s := by
  induction s with
  | nil =>
    exact utf8Decode_nil
  | cons c rest ih =>
    have hstep : utf8Encode (c :: rest) = utf8Bytes c ++ utf8Encode rest := by
      simp [utf8Encode]
    rw [hstep, utf8Decode_bytes_append, ih]

theorem utf8Encode_append (a b : Str) :
    utf8Encode (a ++ b) = utf8Encode a ++ utf8Encode b := by
  simp [utf8Encode]

theorem isAlwaysSafe_ascii {c : Char} (h : isAlwaysSafe c = true) : c.toNat < 0x80 := by
  unfold isAlwaysSafe isAsciiAlphaCh isAsciiDigitCh at h
  simp only [Bool.or_eq_true, Bool.and_eq_true, decide_eq_true_eq, beq_iff_eq] at h
  rcases h with (((((⟨_, h2⟩ | ⟨_, h2⟩) | ⟨_, h2⟩) | rfl) | rfl) | rfl) | rfl
  · have := (char_le_iff c 'z').mp h2
    rw [show ('z').toNat = 122 from rfl] at this
    omega
  · have := (char_le_iff c 'Z').mp h2
    rw [show ('Z').toNat = 90 from rfl] at this
    omega
  · have := (char_le_iff c '9').mp h2
    rw [show ('9').toNat = 57 from rfl] at this
    omega
  · decide
  · decide
  · decide
  · decide

theorem hexDigit_hexUpper {n : Nat} (h : n < 16) : isHexDigitCh (hexUpper n) = true := by
  unfold hexUpper isHexDigitCh isAsciiDigitCh
  split
  · next h10 =>
    have hv : (Char.ofNat (48 + n)).toNat = 48 + n := charOfNat_toNat (by omega)
    simp only [Bool.or_eq_true, Bool.and_eq_true, decide_eq_true_eq]
    left; left
    constructor
    · rw [char_le_iff, hv, show ('0').toNat = 48 from rfl]; omega
    · rw [char_le_iff, hv, show ('9').toNat = 57 from rfl]; omega
  · next h10 =>
    have hv : (Char.ofNat (55 + n)).toNat = 55 + n := charOfNat_toNat (by omega)
    simp only [Bool.or_eq_true, Bool.and_eq_true, decide_eq_true_eq]
    right
    constructor
    · rw [char_le_iff, hv, show ('A').toNat = 65 from rfl]; omega
    · rw [char_le_iff, hv, show ('F').toNat = 70 from rfl]; omega

theorem hexVal_hexUpper {n : Nat} (h : n < 16) : hexVal (hexUpper n) = n := by
  unfold hexUpper hexVal isAsciiDigitCh
  split
  · next h10 =>
    have hv : (Char.ofNat (48 + n)).toNat = 48 + n := charOfNat_toNat (by omega)
    rw [if_pos]
    · rw [hv]; omega
    · simp only [Bool.and_eq_true, decide_eq_true_eq]
      constructor
      · rw [char_le_iff, hv, show ('0').toNat = 48 from rfl]; omega
      · rw [char_le_iff, hv, show ('9').toNat = 57 from rfl]; omega
  · next h10 =>
    have hv : (Char.ofNat (55 + n)).toNat = 55 + n := charOfNat_toNat (by omega)
    rw [if_neg, if_neg]
    · rw [hv]; omega
    · intro hcon
      have ha := (char_le_iff 'a' _).mp hcon.1
      rw [show ('a').toNat = 97 from rfl, hv] at ha
      omega
    · simp only [Bool.and_eq_true, decide_eq_true_eq, not_and]
      intro _
      intro hcon
      have := (char_le_iff _ '9').mp hcon
      rw [show ('9').toNat = 57 from rfl, hv] at this
      omega

theorem contains_false_not_mem {l : Str} {c : Char} (h : l.contains c = false) : ¬ c ∈ l := by
  intro hmem
  rw [show l.contains c = l.elem c from rfl] at h
  rw [List.elem_iff.mpr hmem] at h
  simp at h

theorem mem_contains_true {l : Str} {c : Char} (h : c ∈ l) : l.contains c = true := by
  rw [show l.contains c = l.elem c from rfl]
  exact List.elem_iff.mpr h

theorem hexUpper_ne_pm {n : Nat} (h : n < 16) : hexUpper n ≠ '+' ∧ hexUpper n ≠ '%' := by
  unfold hexUpper
  split
  · constructor <;> exact charOfNat_ne (by omega) (by
      first
        | (rw [show ('+').toNat = 43 from rfl]; omega)
        | (rw [show ('%').toNat = 37 from rfl]; omega))
  · constructor <;> exact charOfNat_ne (by omega) (by
      first
        | (rw [show ('+').toNat = 43 from rfl]; omega)
        | (rw [show ('%').toNat = 37 from rfl]; omega))

theorem unquoteAux_nil (buf : List Nat) : unquoteAux [] buf = utf8Decode buf := by
  rw [unquoteAux.eq_def]

set_option maxRecDepth 4096 in
theorem unquoteAux_cons (c : Char) (rest : Str) (buf : List Nat) :
    unquoteAux (c :: rest) buf =
      (if c.toNat < 0x80 then
        if c = '%' then
          match rest with
          | h1 :: h2 :: rest2 =>
            if isHexDigitCh h1 ∧ isHexDigitCh h2 then
              unquoteAux rest2 (buf ++ [hexVal h1 * 16 + hexVal h2])
            else unquoteAux (h1 :: h2 :: rest2) (buf ++ [0x25])
          | r => unquoteAux r (buf ++ [0x25])
        else unquoteAux rest (buf ++ [c.toNat])
      else utf8Decode buf ++ c :: unquoteAux rest []) := by
  rw [unquoteAux.eq_def]
  rfl

theorem unquoteAux_raw {c : Char} (hascii : c.toNat < 0x80) (hnp : ¬ c = '%')
    (rest : Str) (buf : List Nat) :
    unquoteAux (c :: rest) buf = unquoteAux rest (buf ++ [c.toNat]) := by
  rw [unquoteAux_cons, if_pos hascii, if_neg hnp]

theorem unquoteAux_triple {b : Nat} (hb : b < 256) (rest : Str) (buf : List Nat) :
    unquoteAux ('%' :: hexUpper (b / 16) :: hexUpper (b % 16) :: rest) buf
      = unquoteAux rest (buf ++ [b]) := by
  rw [unquoteAux_cons, if_pos (by decide), if_pos rfl]
  try dsimp only
  rw [if_pos ⟨hexDigit_hexUpper (by omega), hexDigit_hexUpper (by omega)⟩]
  rw [hexVal_hexUpper (by omega), hexVal_hexUpper (by omega)]
  have he : b / 16 * 16 + b % 16 = b := by omega
  rw [he]

theorem scan_triples (bs : List Nat) (hbs : ∀ b ∈ bs, b < 256) (rest : Str) (buf : List Nat) :
    unquoteAux
      ((bs.foldr (fun b acc => '%' :: hexUpper (b / 16) :: hexUpper (b % 16) :: acc) []) ++ rest)
      buf = unquoteAux rest (buf ++ bs) := by
  induction bs generalizing buf with
  | nil => simp
  | cons b bs2 ih =>
    simp only [List.foldr_cons, List.cons_append]
    rw [unquoteAux_triple (hbs b (by simp)) _ buf]
    rw [ih (fun x hx => hbs x (by simp [hx])) (buf ++ [b])]
    rw [List.append_assoc]
    rfl

theorem replacePlus_noop {s : Str} (h : ∀ c ∈ s, c ≠ '+') : replacePlus s = s := by
  induction s with
  | nil => rfl
  | cons c rest ih =>
    unfold replacePlus
    simp only [List.map_cons, if_neg (h c (by simp))]
    have := ih (fun x hx => h x (by simp [hx]))
    unfold replacePlus at this
    rw [this]

theorem replacePlus_append (a b : Str) :
    replacePlus (a ++ b) = replacePlus a ++ replacePlus b := by
  unfold replacePlus
  simp

theorem utf8Bytes_ne_nil (c : Char) : utf8Bytes c ≠ [] := by
  unfold utf8Bytes
  split
  · simp
  · split
    · simp
    · split <;> simp

theorem quotePlusChar_ne_nil (c : Char) : quotePlusChar c ≠ [] := by
  unfold quotePlusChar
  split
  · simp
  · split
    · simp
    · have := utf8Bytes_ne_nil c
      cases hb : utf8Bytes c with
      | nil => exact absurd hb this
      | cons x xs => simp [hb]

theorem quote_plus_ne_nil {s : Str} (h : ¬ s = []) : ¬ quote_plus s = [] := by
  cases s with
  | nil => exact absurd rfl h
  | cons c rest =>
    show ¬ quotePlusChar c ++ quote_plus rest = []
    simp only [List.append_eq_nil, not_and]
    intro hc
    exact absurd hc (quotePlusChar_ne_nil c)

theorem scan_encChar (c : Char) (rest : Str) (cs : Str) :
    unquoteAux (replacePlus (quotePlusChar c) ++ rest) (utf8Encode cs)
      = unquoteAux rest (utf8Encode (cs ++ [c])) := by
  have henc : utf8Encode (cs ++ [c]) = utf8Encode cs ++ utf8Bytes c := by
    rw [utf8Encode_append]
    simp [utf8Encode]
  rw [henc]
  unfold quotePlusChar
  split
  · next hsp =>
    subst hsp
    show unquoteAux (replacePlus ['+'] ++ rest) (utf8Encode cs) = _
    rw [show replacePlus ['+'] = [' '] from rfl]
    rw [show (([' '] : Str) ++ rest) = ' ' :: rest from rfl]
    rw [unquoteAux_raw (by decide) (by decide)]
    rfl
  split
  · next hsafe =>
    rw [replacePlus_noop (fun x hx => by
      simp at hx
      subst hx
      exact (isAlwaysSafe_props hsafe).2.2.2.2.2.2.2.1)]
    rw [show (([c] : Str) ++ rest) = c :: rest from rfl]
    rw [unquoteAux_raw (isAlwaysSafe_ascii hsafe)
      (fun hc => absurd hsafe (by rw [hc]; decide))]
    have hb : utf8Bytes c = [c.toNat] := by
      unfold utf8Bytes
      rw [if_pos (isAlwaysSafe_ascii hsafe)]
    rw [hb]
  · next hsafe =>
    rw [replacePlus_noop (fun x hx => by
      revert hx
      have hlt : ∀ b ∈ utf8Bytes c, b < 256 := fun b hb => utf8Bytes_lt hb
      generalize utf8Bytes c = bytes at hlt
      induction bytes with
      | nil => intro hx; simp at hx
      | cons b bs2 ih =>
        intro hx
        simp only [List.foldr_cons, List.mem_cons] at hx
        rcases hx with rfl | rfl | rfl | hx2
        · decide
        · exact (hexUpper_ne_pm (by have := hlt b (by simp); omega)).1
        · exact (hexUpper_ne_pm (by have := hlt b (by simp); omega)).1
        · exact ih (fun y hy => hlt y (by simp [hy])) hx2)]
    exact scan_triples (utf8Bytes c) (fun b hb => utf8Bytes_lt hb) rest (utf8Encode cs)

theorem scan_quote (s : Str) : ∀ cs : Str,
    unquoteAux (replacePlus (quote_plus s)) (utf8Encode cs) = cs ++ s := by
  induction s with
  | nil =>
    intro cs
    show unquoteAux (replacePlus []) (utf8Encode cs) = cs ++ []
    rw [show replacePlus [] = [] from rfl, unquoteAux_nil, utf8Decode_encode]
    simp
  | cons c s2 ih =>
    intro cs
    show unquoteAux (replacePlus (quotePlusChar c ++ quote_plus s2)) (utf8Encode cs) = _
    rw [replacePlus_append, scan_encChar, ih (cs ++ [c])]
    simp

theorem replacePlus_quotePlusChar (c : Char) :
    replacePlus (quotePlusChar c) = [c] ∨ '%' ∈ replacePlus (quotePlusChar c) := by
  unfold quotePlusChar
  split
  · next hsp => subst hsp; left; rfl
  split
  · next hsafe =>
    left
    exact replacePlus_noop (fun x hx => by
      simp at hx; subst hx
      exact (isAlwaysSafe_props hsafe).2.2.2.2.2.2.2.1)
  · right
    cases hb : utf8Bytes c with
    | nil => exact absurd hb (utf8Bytes_ne_nil c)
    | cons b bs2 =>
      simp only [List.foldr_cons]
      unfold replacePlus
      simp only [List.map_cons]
      rw [if_neg (by decide : ¬ ('%' : Char) = '+')]
      simp

theorem quote_plus_no_percent_eq {s : Str}
    (h : ¬ '%' ∈ replacePlus (quote_plus s)) : replacePlus (quote_plus s) = s := by
  induction s with
  | nil => rfl
  | cons c rest ih =>
    have hsplit : replacePlus (quote_plus (c :: rest))
        = replacePlus (quotePlusChar c) ++ replacePlus (quote_plus rest) := by
      show replacePlus (quotePlusChar c ++ quote_plus rest) = _
      exact replacePlus_append _ _
    rw [hsplit] at h ⊢
    have hnr : ¬ '%' ∈ replacePlus (quote_plus rest) := by
      intro hmem; exact h (List.mem_append.mpr (Or.inr hmem))
    rcases replacePlus_quotePlusChar c with hhead | hhead
    · rw [hhead, ih hnr]
      rfl
    · exact absurd (List.mem_append.mpr (Or.inl hhead)) h

/-- The round trip at the heart of the re-encoding: decoding an encoded
string gives the string back. -/
theorem unquote_plus_quote_plus (s : Str) : unquote_plus (quote_plus s) = s := by
  unfold unquote_plus unquote
  split
  · next h =>
    exact quote_plus_no_percent_eq (contains_false_not_mem (by simpa using h))
  · have := scan_quote s []
    rw [show utf8Encode [] = [] from rfl] at this
    rw [this]
    simp

/-! ## Lemmas: splitting and decoding an encoded query string -/

theorem splitOnCh_no_sep {ch : Char} {s : Str} (h : ∀ c ∈ s, ¬ c = ch) :
    splitOnCh ch s = [s] := by
  induction s with
  | nil => rfl
  | cons x rest ih =>
    have hx : ¬ (x == ch) = true := by
      simp only [beq_iff_eq]
      exact h x (by simp)
    unfold splitOnCh
    rw [if_neg hx, ih (fun c hc => h c (List.mem_cons_of_mem x hc))]

theorem splitOnCh_cons (ch x : Char) (rest : Str) :
    splitOnCh ch (x :: rest) =
      if x == ch then [] :: splitOnCh ch rest
      else match splitOnCh ch rest with
        | [] => [[x]]
        | h :: t => (x :: h) :: t := rfl

theorem splitOnCh_append_sep (ch : Char) (a b : Str) :
    splitOnCh ch (a ++ ch :: b) = splitOnCh ch a ++ splitOnCh ch b := by
  induction a with
  | nil =>
    simp only [List.nil_append]
    rw [splitOnCh_cons, if_pos (by simp)]
    rfl
  | cons x rest ih =>
    by_cases hx : x = ch
    · subst hx
      simp only [List.cons_append]
      rw [splitOnCh_cons x x (rest ++ x :: b), if_pos (by simp), ih,
        splitOnCh_cons x x rest, if_pos (by simp)]
      rfl
    · cases hsr : splitOnCh ch rest with
      | nil => exact absurd hsr (splitOnCh_ne_nil ch rest)
      | cons h0 t0 =>
        simp only [List.cons_append]
        rw [splitOnCh_cons ch x (rest ++ ch :: b), if_neg (by simp [hx]), ih, hsr,
          splitOnCh_cons ch x rest, if_neg (by simp [hx]), hsr]
        rfl

theorem parse_qsl_nil : parse_qsl [] = [] := rfl

theorem parse_qsl_append (a b : Str) :
    parse_qsl (a ++ '&' :: b) = parse_qsl a ++ parse_qsl b := by
  unfold parse_qsl
  rw [splitOnCh_append_sep, List.filterMap_append]

theorem quote_plus_not_eq_amp {s : Str} {x : Char} (hx : x ∈ quote_plus s) :
    (!(x == '=')) = true ∧ ¬ x = '&' := by
  have h := quote_plus_chars hx
  exact ⟨by simp [h.2.2.2.2.2.2], h.2.2.2.2.2.1⟩

theorem parse_qsl_enc_pair (k v : Str) :
    parse_qsl (quote_plus k ++ '=' :: quote_plus v) = if v = [] then [] else [(k, v)] := by
  have hno : ∀ c ∈ quote_plus k ++ '=' :: quote_plus v, ¬ c = '&' := by
    intro c hc
    rcases List.mem_append.mp hc with h1 | h2
    · exact (quote_plus_not_eq_amp h1).2
    · rcases List.mem_cons.mp h2 with rfl | h3
      · decide
      · exact (quote_plus_not_eq_amp h3).2
  unfold parse_qsl
  rw [splitOnCh_no_sep hno]
  rw [List.filterMap_cons]
  have hcont : (quote_plus k ++ '=' :: quote_plus v).contains '=' = true :=
    mem_contains_true (List.mem_append.mpr (Or.inr (by simp)))
  rw [if_pos hcont]
  rw [takeWhile_stop _ _ _ (fun c hc => (quote_plus_not_eq_amp hc).1) (by decide)]
  rw [dropWhile_stop _ _ _ (fun c hc => (quote_plus_not_eq_amp hc).1) (by decide)]
  simp only [List.tail_cons]
  by_cases hv : v = []
  · subst hv
    rw [show (quote_plus ([] : Str)) = [] from rfl]
    simp
  · rw [if_neg (fun hq => hv (by
      cases v with
      | nil => rfl
      | cons c cs => exact absurd hq (quote_plus_ne_nil (by simp)))), if_neg hv]
    rw [unquote_plus_quote_plus, unquote_plus_quote_plus]
    rfl

theorem parse_qsl_blank_param (name : Str) (h : ∀ c ∈ name, ¬ c = '&' ∧ ¬ c = '=') :
    parse_qsl (name ++ ['=']) = [] := by
  unfold parse_qsl
  rw [splitOnCh_no_sep (by
    intro c hc
    rcases List.mem_append.mp hc with h1 | h2
    · exact (h c h1).1
    · rcases List.mem_cons.mp h2 with rfl | h3
      · decide
      · simp at h3)]
  rw [List.filterMap_cons]
  have hcont : (name ++ ['=']).contains '=' = true :=
    mem_contains_true (List.mem_append.mpr (Or.inr (by simp)))
  rw [if_pos hcont]
  rw [show ((name ++ ['=']) : Str) = name ++ '=' :: [] from rfl]
  rw [dropWhile_stop _ _ _ (fun c hc => by simp [(h c hc).2]) (by decide)]
  simp only [List.tail_cons]
  simp

theorem parse_qsl_joinCh (fields : List Str) :
    parse_qsl (joinCh '&' fields) = (fields.map parse_qsl).join := by
  induction fields with
  | nil => rfl
  | cons f rest ih =>
    cases rest with
    | nil => simp [joinCh]
    | cons g rest2 =>
      rw [show joinCh '&' (f :: g :: rest2) = f ++ '&' :: joinCh '&' (g :: rest2) from rfl,
        parse_qsl_append, ih]
      simp

theorem field_mem_urlencode {d : QDict} {f : Str}
    (hf : f ∈ (d.map (fun kv => kv.2.map
      (fun v => quote_plus kv.1 ++ '=' :: quote_plus v))).join) :
    ∃ kv ∈ d, ∃ v ∈ kv.2, f = quote_plus kv.1 ++ '=' :: quote_plus v := by
  rcases List.mem_join.mp hf with ⟨grp, hgrp, hfg⟩
  rcases List.mem_map.mp hgrp with ⟨kv, hkv, rfl⟩
  rcases List.mem_map.mp hfg with ⟨v, hv, rfl⟩
  exact ⟨kv, hkv, v, hv, rfl⟩

theorem parse_qsl_urlencode_keys {d : QDict} {kv : Str × Str}
    (h : kv ∈ parse_qsl (urlencode d)) : kv.1 ∈ d.map (fun p => p.1) := by
  unfold urlencode at h
  rw [parse_qsl_joinCh] at h
  rcases List.mem_join.mp h with ⟨l, hl, hkvl⟩
  rcases List.mem_map.mp hl with ⟨f, hf, rfl⟩
  rcases field_mem_urlencode hf with ⟨p, hp, v, hv, rfl⟩
  rw [parse_qsl_enc_pair] at hkvl
  split at hkvl
  · simp at hkvl
  · simp at hkvl
    rw [hkvl]
    exact List.mem_map.mpr ⟨p, hp, rfl⟩

theorem qdictAdd_keys {d : QDict} {k v k2 : Str}
    (h : k2 ∈ (qdictAdd d k v).map (fun p => p.1)) :
    k2 ∈ d.map (fun p => p.1) ∨ k2 = k := by
  induction d with
  | nil =>
    simp [qdictAdd] at h
    exact Or.inr h
  | cons p rest ih =>
    rcases p with ⟨k0, vs⟩
    unfold qdictAdd at h
    split at h
    · left
      simpa using h
    · simp only [List.map_cons, List.mem_cons] at h
      rcases h with rfl | h2
      · left; simp
      · rcases ih h2 with h3 | h3
        · left; simp [h3]
        · right; exact h3

theorem foldl_qdictAdd_keys {l : List (Str × Str)} {d0 : QDict} {k2 : Str}
    (h : k2 ∈ (l.foldl (fun d kv => qdictAdd d kv.1 kv.2) d0).map (fun p => p.1)) :
    k2 ∈ d0.map (fun p => p.1) ∨ ∃ kv ∈ l, k2 = kv.1 := by
  induction l generalizing d0 with
  | nil => exact Or.inl h
  | cons kv rest ih =>
    simp only [List.foldl_cons] at h
    rcases ih h with h1 | h2
    · rcases qdictAdd_keys h1 with h3 | h3
      · exact Or.inl h3
      · right; exact ⟨kv, by simp, h3⟩
    · rcases h2 with ⟨kv2, hkv2, rfl⟩
      right; exact ⟨kv2, List.mem_cons_of_mem kv hkv2, rfl⟩

theorem queryKeys_urlencode {d : QDict} {k : Str} (h : k ∈ queryKeys (urlencode d)) :
    k ∈ d.map (fun p => p.1) := by
  unfold queryKeys parse_qs at h
  rcases foldl_qdictAdd_keys h with h1 | ⟨kv, hkv, rfl⟩
  · simp at h1
  · exact parse_qsl_urlencode_keys hkv

theorem queryKeys_nil : queryKeys [] = [] := rfl

theorem qdictPop_keys_sub {d : QDict} {k k2 : Str}
    (h : k2 ∈ (qdictPop k d).map (fun p => p.1)) : k2 ∈ d.map (fun p => p.1) := by
  unfold qdictPop at h
  rcases List.mem_map.mp h with ⟨p, hp, rfl⟩
  exact List.mem_map.mpr ⟨p, List.mem_of_mem_filter hp, rfl⟩

theorem qdictPop_self_not_mem (k : Str) (d : QDict) :
    ¬ k ∈ (qdictPop k d).map (fun p => p.1) := by
  intro h
  rcases List.mem_map.mp h with ⟨p, hp, hpk⟩
  have hd := List.of_mem_filter hp
  simp only [decide_eq_true_eq] at hd
  exact hd hpk

theorem qdictPop_absent {k : Str} {d : QDict} (h : ¬ k ∈ d.map (fun p => p.1)) :
    qdictPop k d = d := by
  unfold qdictPop
  apply List.filter_eq_self.mpr
  intro p hp
  simp only [decide_eq_true_eq]
  intro hpk
  exact h (List.mem_map.mpr ⟨p, hp, hpk⟩)

theorem foldl_qdictPop_keys {ps : List Str} {d : QDict} {k : Str}
    (h : k ∈ (ps.foldl (fun acc p => qdictPop p acc) d).map (fun p => p.1)) :
    k ∈ d.map (fun p => p.1) := by
  induction ps generalizing d with
  | nil => exact h
  | cons p rest ih =>
    simp only [List.foldl_cons] at h
    exact qdictPop_keys_sub (ih h)

theorem stripParams_no_dims {rules : RemoveParams} (hr : rules.raw_image = true)
    (d : QDict) :
    ¬ ("width").data ∈ (stripParams rules d).map (fun p => p.1) ∧
    ¬ ("height").data ∈ (stripParams rules d).map (fun p => p.1) := by
  have hsub : ∀ k2 : Str, k2 ∈ (stripParams rules d).map (fun p => p.1) →
      k2 ∈ (qdictPop (("height").data) (qdictPop (("width").data) d)).map (fun p => p.1) := by
    intro k2 hk2
    unfold stripParams at hk2
    rw [hr] at hk2
    simp only [if_true] at hk2
    have h2 := foldl_qdictPop_keys hk2
    split at h2
    · exact qdictPop_keys_sub h2
    · exact h2
  constructor
  · intro h
    exact qdictPop_self_not_mem (("width").data) d (qdictPop_keys_sub (hsub _ h))
  · intro h
    exact qdictPop_self_not_mem (("height").data) (qdictPop (("width").data) d) (hsub _ h)

/-! ## Lemmas: the download model -/

theorem fsExists_fsWrite_self (fs : FS) (p : Str) (content : List Nat) :
    fsExists (fsWrite fs p content) p = true := by
  unfold fsWrite
  split
  · next hex =>
    unfold fsExists at hex ⊢
    rw [List.contains_iff_exists_mem_beq] at hex ⊢
    rcases hex with ⟨a, ha, hab⟩
    rcases List.mem_map.mp ha with ⟨e, he, rfl⟩
    refine ⟨p, List.mem_map.mpr ⟨(if e.1 = p then (p, content) else e), ?_, ?_⟩, by simp⟩
    · exact List.mem_map.mpr ⟨e, he, rfl⟩
    · simp only [beq_iff_eq] at hab
      rw [if_pos hab.symm]
  · unfold fsExists
    rw [List.contains_iff_exists_mem_beq]
    exact ⟨p, by simp, by simp⟩

theorem runParallel_shape (outdir : Str) (oracle : Str → Nat → FetchOutcome)
    (urls : List Str) (fs : FS) :
    (runParallel outdir oracle urls fs).aborted = false ∧
    (runParallel outdir oracle urls fs).outcomes.length = urls.length := by
  induction urls generalizing fs with
  | nil => exact ⟨rfl, rfl⟩
  | cons u rest ih =>
    refine ⟨rfl, ?_⟩
    unfold runParallel
    simp only [List.length_cons]
    simp [(ih _).2]

/-! ## Lemmas: membership in the extraction result -/

theorem extract_mem_aux (anchors : List Str) (base : Str) (exts : List Str)
    (rules : RemoveParams) (s : Finset Str) (u : Str) :
    u ∈ anchors.foldl
        (fun s h => if candidateOk exts h then insert (canonicalize h base rules) s else s) s ↔
      u ∈ s ∨ ∃ h ∈ anchors, candidateOk exts h = true ∧ u = canonicalize h base rules := by
  induction anchors generalizing s with
  | nil => simp
  | cons a rest ih =>
    simp only [List.foldl_cons]
    rw [ih]
    constructor
    · rintro (hu | ⟨h, hh, hok, rfl⟩)
      · split at hu
        · next hok =>
          rcases Finset.mem_insert.mp hu with rfl | hu2
          · exact Or.inr ⟨a, by simp, hok, rfl⟩
          · exact Or.inl hu2
        · exact Or.inl hu
      · exact Or.inr ⟨h, List.mem_cons_of_mem a hh, hok, rfl⟩
    · rintro (hu | ⟨h, hh, hok, rfl⟩)
      · left
        split
        · exact Finset.mem_insert_of_mem hu
        · exact hu
      · rcases List.mem_cons.mp hh with rfl | hh2
        · left
          rw [if_pos hok]
          exact Finset.mem_insert_self _ _
        · exact Or.inr ⟨h, hh2, hok, rfl⟩

theorem downloadAttempt_exists {url outdir : Str} {fs : FS} (f : FetchOutcome)
    (h : fsExists fs (localPath url outdir) = true) :
    downloadAttempt url outdir fs f = (.alreadyExists, fs, 0) := by
  simp only [downloadAttempt]
  rw [if_pos h]

theorem downloadAttempt_failBefore {url outdir : Str} {fs : FS}
    (h : fsExists fs (localPath url outdir) = false) :
    downloadAttempt url outdir fs .failBeforeWrite = (.raised, fs, 1) := by
  simp only [downloadAttempt]
  rw [if_neg (by simp [h])]

theorem downloadAttempt_failDuring {url outdir : Str} {fs : FS} (w : List Nat)
    (h : fsExists fs (localPath url outdir) = false) :
    downloadAttempt url outdir fs (.failDuringWrite w)
      = (.raised, fsWrite fs (localPath url outdir) w, 1) := by
  simp only [downloadAttempt]
  rw [if_neg (by simp [h])]

theorem download_image_exists (url outdir : Str) (oracle : Nat → FetchOutcome) (fs : FS)
    (h : fsExists fs (localPath url outdir) = true) :
    download_image url outdir oracle fs = ⟨some .alreadyExists, 1, [], 0, fs⟩ := by
  simp only [download_image, retryGo, downloadAttempt_exists (oracle 1) h]

theorem download_image_all_fail (url outdir : Str) (oracle : Nat → FetchOutcome) (fs : FS)
    (hne : fsExists fs (localPath url outdir) = false)
    (hf : ∀ n, oracle n = FetchOutcome.failBeforeWrite) :
    download_image url outdir oracle fs = ⟨none, 3, [2, 2], 3, fs⟩ := by
  have ha : ∀ n, downloadAttempt url outdir fs (oracle n) = (.raised, fs, 1) := by
    intro n
    rw [hf n]
    exact downloadAttempt_failBefore hne
  simp only [download_image, retryGo, ha]
  rfl

theorem download_image_partial_then_skip (url outdir : Str) (oracle : Nat → FetchOutcome)
    (fs : FS) (w : List Nat)
    (hne : fsExists fs (localPath url outdir) = false)
    (h1 : oracle 1 = .failDuringWrite w) :
    download_image url outdir oracle fs =
      ⟨some .alreadyExists, 2, [2], 1, fsWrite fs (localPath url outdir) w⟩ := by
  have ha1 : downloadAttempt url outdir fs (oracle 1)
      = (.raised, fsWrite fs (localPath url outdir) w, 1) := by
    rw [h1]
    exact downloadAttempt_failDuring w hne
  have ha2 : downloadAttempt url outdir (fsWrite fs (localPath url outdir) w) (oracle 2)
      = (.alreadyExists, fsWrite fs (localPath url outdir) w, 0) :=
    downloadAttempt_exists (oracle 2) (fsExists_fsWrite_self fs _ w)
  simp only [download_image, retryGo, ha1, ha2]
  rfl

theorem canonicalize_queryKeys_sub {href base : Str} {rules : RemoveParams} {key : Str}
    (hbase : queryOf base = [])
    (hmem : key ∈ queryKeys (queryOf (canonicalize href base rules))) :
    key ∈ (stripParams rules (parse_qs (urlparse href []).query)).map (fun p => p.1) := by
  have hd0 : ∀ c ∈ ([] : Str), isSchemeChar c = true := by intro c hc; simp at hc
  obtain ⟨hs, hn, hp, hpa, hq, hf⟩ := urlparse_conds href [] hd0
  have hnq1 : ∀ c ∈ urlencode (stripParams rules (parse_qs (urlparse href []).query)),
      c ≠ '#' := fun c hc => (urlencode_chars hc).2.1
  have hnq2 : cleanChars (urlencode (stripParams rules (parse_qs (urlparse href []).query))) :=
    fun c hc => ⟨(urlencode_chars hc).2.2.1, (urlencode_chars hc).2.2.2.1,
      (urlencode_chars hc).2.2.2.2⟩
  have hinner : queryOf (urlunparse (urlparse href []).scheme (urlparse href []).netloc
      (urlparse href []).path (urlparse href []).params
      (urlencode (stripParams rules (parse_qs (urlparse href []).query)))
      (urlparse href []).fragment)
      = urlencode (stripParams rules (parse_qs (urlparse href []).query)) :=
    urlsplit_unparse_query _ _ _ _ _ _ [] hs hn.1 hn.2 hp.1 hp.2 hpa.1 hpa.2 hnq1 hnq2 hf
  simp only [canonicalize, canonFromParse] at hmem
  rcases urljoin_query base (urlunparse (urlparse href []).scheme (urlparse href []).netloc
      (urlparse href []).path (urlparse href []).params
      (urlencode (stripParams rules (parse_qs (urlparse href []).query)))
      (urlparse href []).fragment) with hj | hj
  · rw [hj, hinner] at hmem
    exact queryKeys_urlencode hmem
  · rw [hj, hbase, queryKeys_nil] at hmem
    simp at hmem

/-! ## The claims -/

/-- C1: the spec asserts that two raw hrefs whose query strings decode to the
same parameter-to-values mapping canonicalize to byte-identical URLs even when
the parameters appear in a different order.  The re-encoding step preserves the
insertion order of `parse_qs`, so only hrefs whose queries decode to the same
mapping in the same first-occurrence key order are guaranteed identical: when
the full parse results agree on every component except the raw query, and the
decoded query dicts are equal as ordered dicts, the canonical outputs are
equal. -/
theorem C1_query_map_determinism (h1 h2 base : Str) (rules : RemoveParams)
    (hs : (urlparse h1 []).scheme = (urlparse h2 []).scheme)
    (hn : (urlparse h1 []).netloc = (urlparse h2 []).netloc)
    (hp : (urlparse h1 []).path = (urlparse h2 []).path)
    (hpa : (urlparse h1 []).params = (urlparse h2 []).params)
    (hf : (urlparse h1 []).fragment = (urlparse h2 []).fragment)
    (hq : parse_qs (urlparse h1 []).query = parse_qs (urlparse h2 []).query) :
    canonicalize h1 base rules = canonicalize h2 base rules := by
  simp only [canonicalize, canonFromParse]
  rw [hs, hn, hp, hpa, hf, hq]

/-- C1 witness: two hrefs whose queries list the same pairs in a different
textual order but decode to the same ordered dict canonicalize identically. -/
theorem C1_witness :
    canonicalize ("/orderfiles/a.jpg?a=1&b=2&a=3").data ("http://x").data ⟨false, false, []⟩
      = canonicalize ("/orderfiles/a.jpg?a=1&a=3&b=2").data ("http://x").data
          ⟨false, false, []⟩ :=
  C1_query_map_determinism _ _ _ _ (by decide) (by decide) (by decide) (by decide)
    (by decide) (by decide)

set_option maxRecDepth 100000 in
/-- C1 counterexample: two hrefs whose queries decode to the same
parameter-to-values mapping (the dicts are permutations of one another) but in
a different order canonicalize to different strings, and the two do not
collapse to a single entry of the extraction result. -/
theorem C1_counterexample :
    (parse_qs (queryOf ("/orderfiles/a.jpg?a=1&b=2").data)).Perm
      (parse_qs (queryOf ("/orderfiles/a.jpg?b=2&a=1").data)) ∧
    ¬ canonicalize ("/orderfiles/a.jpg?a=1&b=2").data ("http://x").data ⟨false, false, []⟩
      = canonicalize ("/orderfiles/a.jpg?b=2&a=1").data ("http://x").data ⟨false, false, []⟩ ∧
    (extract_image_urls [("/orderfiles/a.jpg?a=1&b=2").data, ("/orderfiles/a.jpg?b=2&a=1").data]
      ("http://x").data [(".jpg").data] ⟨false, false, []⟩).card = 2 := by
  refine ⟨by decide, by decide, by decide⟩

/-- C2: what is true of the claim: a job whose every attempt fails is retried
up to exactly 3 attempts with a fixed wait of 2 between attempts and then
resolves with no normal result, and in parallel mode the run never aborts and
every submitted job runs.  (The sequential half of the claim is refuted
separately.) -/
theorem C2_retry_and_parallel (url outdir : Str) (oracle : Nat → FetchOutcome) (fs : FS)
    (hne : fsExists fs (localPath url outdir) = false)
    (hf : ∀ n, oracle n = FetchOutcome.failBeforeWrite) :
    download_image url outdir oracle fs = ⟨none, 3, [2, 2], 3, fs⟩ ∧
    ∀ (urls : List Str) (orc : Str → Nat → FetchOutcome) (fs0 : FS),
      (runParallel outdir orc urls fs0).aborted = false ∧
      (runParallel outdir orc urls fs0).outcomes.length = urls.length :=
  ⟨download_image_all_fail url outdir oracle fs hne hf,
   fun urls orc fs0 => runParallel_shape outdir orc urls fs0⟩

/-- C2 witness: a concrete always-failing job makes exactly 3 attempts with
waits [2, 2], and a parallel run over one URL does not abort. -/
theorem C2_witness :
    download_image ("http://x/orderfiles/a.jpg").data ("o").data
        (fun _ => FetchOutcome.failBeforeWrite) [] = ⟨none, 3, [2, 2], 3, []⟩ ∧
    (runParallel ("o").data (fun _ _ => FetchOutcome.failBeforeWrite)
        [("http://x/orderfiles/a.jpg").data] []).aborted = false :=
  ⟨(C2_retry_and_parallel ("http://x/orderfiles/a.jpg").data ("o").data _ []
      (by decide) (fun n => rfl)).1,
   ((C2_retry_and_parallel ("http://x/orderfiles/a.jpg").data ("o").data
      (fun _ => FetchOutcome.failBeforeWrite) []
      (by decide) (fun n => rfl)).2 [("http://x/orderfiles/a.jpg").data] _ []).1⟩

/-- C2 counterexample: in sequential mode a job that exhausts its retries
aborts the whole run — the second job never runs. -/
theorem C2_counterexample :
    (runSequential ("o").data (fun _ _ => FetchOutcome.failBeforeWrite)
        [("http://x/orderfiles/a.jpg").data, ("http://x/orderfiles/b.jpg").data] []).aborted
      = true ∧
    (runSequential ("o").data (fun _ _ => FetchOutcome.failBeforeWrite)
        [("http://x/orderfiles/a.jpg").data, ("http://x/orderfiles/b.jpg").data]
        []).outcomes.length = 1 := by
  refine ⟨by decide, by decide⟩

/-- C3: with `raw_image` set the canonical URL never carries a `width` or
`height` query key (for a base URL without a query of its own, as `main`
always passes), and popping an absent key from a query dict is a no-op.  The
case-insensitivity half of the claim is refuted separately. -/
theorem C3_strip_dimensions (href base : Str) (rules : RemoveParams) (k : Str) (d : QDict)
    (hr : rules.raw_image = true) (hbase : queryOf base = [])
    (habs : ¬ k ∈ d.map (fun p => p.1)) :
    ¬ ("width").data ∈ queryKeys (queryOf (canonicalize href base rules)) ∧
    ¬ ("height").data ∈ queryKeys (queryOf (canonicalize href base rules)) ∧
    qdictPop k d = d := by
  refine ⟨fun hmem => ?_, fun hmem => ?_, qdictPop_absent habs⟩
  · exact (stripParams_no_dims hr _).1 (canonicalize_queryKeys_sub hbase hmem)
  · exact (stripParams_no_dims hr _).2 (canonicalize_queryKeys_sub hbase hmem)

/-- C3 witness: a concrete href carrying `width` and `height` loses both keys
(lowercase), and popping the already-removed key from a sample dict is a
no-op. -/
theorem C3_witness :
    ¬ ("width").data ∈ queryKeys (queryOf (canonicalize
        ("/orderfiles/a.jpg?a=1&width=800&height=600").data ("http://x").data
        ⟨true, false, []⟩)) ∧
    ¬ ("height").data ∈ queryKeys (queryOf (canonicalize
        ("/orderfiles/a.jpg?a=1&width=800&height=600").data ("http://x").data
        ⟨true, false, []⟩)) ∧
    qdictPop ("width").data [(("a").data, [("1").data])] = [(("a").data, [("1").data])] :=
  C3_strip_dimensions ("/orderfiles/a.jpg?a=1&width=800&height=600").data ("http://x").data
    ⟨true, false, []⟩ ("width").data [(("a").data, [("1").data])] rfl (by decide) (by decide)

/-- C3 counterexample: the pops are case-sensitive — `Width=800` survives
canonicalization with `raw_image` set, so the output still has a key whose
lowercasing is `width`. -/
theorem C3_counterexample :
    (queryKeys (queryOf (canonicalize ("/orderfiles/a.jpg?Width=800").data
        ("http://x").data ⟨true, false, []⟩))).map pyLower = [("width").data] := by decide

/-- C4: a job whose derived local filename already exists resolves at once as
an early return (Skipped), with a single attempt, no retry sleeps, zero fetch
calls and the filesystem unchanged. -/
theorem C4_skip_existing (url outdir : Str) (oracle : Nat → FetchOutcome) (fs : FS)
    (h : fsExists fs (localPath url outdir) = true) :
    download_image url outdir oracle fs
      = ⟨some .alreadyExists, 1, [], 0, fs⟩ :=
  download_image_exists url outdir oracle fs h

/-- C4 witness: a directory already holding `a.jpg` makes the job for
`.../orderfiles/a.jpg` resolve with zero fetch calls and no change. -/
theorem C4_witness :
    download_image ("http://x/orderfiles/a.jpg").data ("o").data
        (fun _ => FetchOutcome.success [1]) [(("o/a.jpg").data, [7])]
      = ⟨some .alreadyExists, 1, [], 0, [(("o/a.jpg").data, [7])]⟩ :=
  C4_skip_existing ("http://x/orderfiles/a.jpg").data ("o").data
    (fun _ => FetchOutcome.success [1]) [(("o/a.jpg").data, [7])] (by decide)

/-- C5: contrary to the claimed temporary staging, the stream is written
directly at the final derived path: an attempt that dies mid-write leaves the
partial bytes at the final path, that path then exists, and a subsequent run
finds the file and resolves as already-existing instead of re-downloading. -/
theorem C5_direct_write (url outdir : Str) (fs : FS) (w full : List Nat)
    (hne : fsExists fs (localPath url outdir) = false) :
    (downloadAttempt url outdir fs (.failDuringWrite w)).2.1
        = fsWrite fs (localPath url outdir) w ∧
    fsExists (fsWrite fs (localPath url outdir) w) (localPath url outdir) = true ∧
    (download_image url outdir (fun _ => .success full)
        (fsWrite fs (localPath url outdir) w)).result = some .alreadyExists := by
  refine ⟨by rw [downloadAttempt_failDuring w hne], fsExists_fsWrite_self fs _ w, ?_⟩
  rw [download_image_exists _ _ _ _ (fsExists_fsWrite_self fs _ w)]

/-- C5 witness: a concrete interrupted write leaves the partial file at the
final path and the follow-up run skips it. -/
theorem C5_witness :
    (downloadAttempt ("http://x/orderfiles/a.jpg").data ("o").data []
        (.failDuringWrite [1, 2])).2.1
      = fsWrite [] (localPath ("http://x/orderfiles/a.jpg").data ("o").data) [1, 2] ∧
    fsExists (fsWrite [] (localPath ("http://x/orderfiles/a.jpg").data ("o").data) [1, 2])
      (localPath ("http://x/orderfiles/a.jpg").data ("o").data) = true ∧
    (download_image ("http://x/orderfiles/a.jpg").data ("o").data
        (fun _ => .success [9, 9, 9])
        (fsWrite [] (localPath ("http://x/orderfiles/a.jpg").data ("o").data)
          [1, 2])).result = some .alreadyExists :=
  C5_direct_write ("http://x/orderfiles/a.jpg").data ("o").data [] [1, 2] [9, 9, 9]
    (by decide)

/-- C5 counterexample: after a mid-write failure the final path holds exactly
the partial bytes, and a later run with the full content available resolves as
already-existing, keeping the partial file. -/
theorem C5_counterexample :
    (downloadAttempt ("http://x/orderfiles/a.jpg").data ("o").data []
        (.failDuringWrite [1, 2])).2.1 = [(("o/a.jpg").data, [1, 2])] ∧
    fsExists [(("o/a.jpg").data, [1, 2])]
      (localPath ("http://x/orderfiles/a.jpg").data ("o").data) = true ∧
    (download_image ("http://x/orderfiles/a.jpg").data ("o").data
        (fun _ => .success [9, 9, 9]) [(("o/a.jpg").data, [1, 2])]).fs
      = [(("o/a.jpg").data, [1, 2])] := by
  refine ⟨by decide, by decide, by decide⟩

set_option maxRecDepth 100000 in
/-- C6: on the two-anchor scenario with `.jpg`, stripping dimensions and
watermark collapses both anchors to the single query-less URL, while with no
rules active the two distinct URLs keep their `width` and `watermark`
values. -/
theorem C6_scenario :
    extract_image_urls [("/orderfiles/a.jpg?width=800&watermark=1").data,
        ("/orderfiles/a.jpg?width=400&watermark=1").data]
        ("http://x").data [(".jpg").data] ⟨true, true, []⟩
      = {("http://x/orderfiles/a.jpg").data} ∧
    extract_image_urls [("/orderfiles/a.jpg?width=800&watermark=1").data,
        ("/orderfiles/a.jpg?width=400&watermark=1").data]
        ("http://x").data [(".jpg").data] ⟨false, false, []⟩
      = {("http://x/orderfiles/a.jpg?width=800&watermark=1").data,
         ("http://x/orderfiles/a.jpg?width=400&watermark=1").data} ∧
    ¬ ("http://x/orderfiles/a.jpg?width=800&watermark=1").data
      = ("http://x/orderfiles/a.jpg?width=400&watermark=1").data := by
  refine ⟨by decide, by decide, by decide⟩

/-- C7: an extracted URL is exactly the canonicalization of an anchor href
that contains the `/orderfiles/` marker (in the raw href) and whose parsed
path case-insensitively ends in one of the extensions; and on the
three-anchor scenario only the `.jpg` and `.png` anchors survive. -/
theorem C7_filter :
    (∀ (anchors : List Str) (b : Str) (exts : List Str) (rules : RemoveParams) (u : Str),
      u ∈ extract_image_urls anchors b exts rules ↔
        ∃ h ∈ anchors, (subStr markerStr h = true ∧
          ((exts.map pyLower).any fun e => endsWithStr e (pyLower (urlparse h []).path))
            = true) ∧
          u = canonicalize h b rules) ∧
    extract_image_urls [("/orderfiles/a.jpg").data, ("/orderfiles/b.PNG").data,
        ("/orderfiles/c.gif").data] ("http://x").data
        [(".jpg").data, (".png").data] ⟨false, false, []⟩
      = {("http://x/orderfiles/a.jpg").data, ("http://x/orderfiles/b.PNG").data} := by
  constructor
  · intro anchors b exts rules u
    unfold extract_image_urls
    rw [extract_mem_aux]
    simp only [Finset.not_mem_empty, false_or]
    constructor
    · rintro ⟨h, hh, hok, rfl⟩
      exact ⟨h, hh, by simpa [candidateOk, Bool.and_eq_true] using hok, rfl⟩
    · rintro ⟨h, hh, hcond, rfl⟩
      exact ⟨h, hh, by simp [candidateOk, Bool.and_eq_true, hcond.1, hcond.2], rfl⟩
  · decide

/-- C7 witness: the `.jpg` anchor's canonical URL is a member of the
extraction result, through the filter characterization. -/
theorem C7_witness :
    ("http://x/orderfiles/a.jpg").data ∈ extract_image_urls
      [("/orderfiles/a.jpg").data, ("/orderfiles/c.gif").data]
      ("http://x").data [(".jpg").data, (".png").data] ⟨false, false, []⟩ :=
  (C7_filter.1 _ _ _ _ _).mpr
    ⟨("/orderfiles/a.jpg").data, by decide, ⟨by decide, by decide⟩, by decide⟩

/-- C7 counterexample: the marker is tested on the whole raw href, not on the
path — an href with `/orderfiles/` only inside its query passes the filter
and lands in the extraction result although its path holds no marker. -/
theorem C7_counterexample :
    candidateOk [(".jpg").data] ("/x/a.jpg?y=/orderfiles/").data = true ∧
    subStr markerStr (urlparse ("/x/a.jpg?y=/orderfiles/").data []).path = false ∧
    (extract_image_urls [("/x/a.jpg?y=/orderfiles/").data] ("http://x").data
        [(".jpg").data] ⟨false, false, []⟩).card = 1 := by
  refine ⟨by decide, by decide, by decide⟩

/-- C8: the exit code — a parallel run exits 1 exactly when the page text is
empty or extraction is empty; a sequential run additionally exits 1 whenever
its download loop aborts on an exhausted job. -/
theorem C8_exit_codes (html : Str) (anchors : List Str) (b : Str) (exts : List Str)
    (rules : RemoveParams) (outdir : Str) (oracle : Str → Nat → FetchOutcome)
    (fs : FS) (urls : List Str) :
    (mainRun html anchors b exts rules true outdir oracle fs urls).1
      = (if html = [] ∨ extract_image_urls anchors b exts rules = ∅ then 1 else 0) ∧
    (mainRun html anchors b exts rules false outdir oracle fs urls).1
      = (if html = [] ∨ extract_image_urls anchors b exts rules = ∅
            ∨ (runSequential outdir oracle urls fs).aborted = true then 1 else 0) := by
  constructor
  · by_cases h1 : html = []
    · simp [mainRun, h1]
    · by_cases h2 : extract_image_urls anchors b exts rules = ∅
      · simp [mainRun, h1, h2]
      · simp [mainRun, h1, h2, (runParallel_shape outdir oracle urls fs).1]
  · by_cases h1 : html = []
    · simp [mainRun, h1]
    · by_cases h2 : extract_image_urls anchors b exts rules = ∅
      · simp [mainRun, h1, h2]
      · cases habort : (runSequential outdir oracle urls fs).aborted with
        | false => simp [mainRun, h1, h2, habort]
        | true => simp [mainRun, h1, h2, habort]

/-- C8 witness: a parallel run whose single job exhausts all retries still
exits 0, while the page-fetch and extraction are nonempty. -/
theorem C8_witness :
    (mainRun ("h").data [("/orderfiles/a.jpg").data] ("http://x").data [(".jpg").data]
        ⟨false, false, []⟩ true ("o").data (fun _ _ => FetchOutcome.failBeforeWrite) []
        [("http://x/orderfiles/a.jpg").data]).1 = 0 := by
  have h := (C8_exit_codes ("h").data [("/orderfiles/a.jpg").data] ("http://x").data
      [(".jpg").data] ⟨false, false, []⟩ ("o").data (fun _ _ => FetchOutcome.failBeforeWrite)
      [] [("http://x/orderfiles/a.jpg").data]).1
  rw [h]
  decide

/-- C8 counterexample: a sequential run with nonempty page text and a
nonempty extraction exits 1 when a job exhausts its retries — partial
per-image failure does escalate to a non-zero exit in sequential mode. -/
theorem C8_counterexample :
    (mainRun ("h").data [("/orderfiles/a.jpg").data] ("http://x").data [(".jpg").data]
        ⟨false, false, []⟩ false ("o").data (fun _ _ => FetchOutcome.failBeforeWrite) []
        [("http://x/orderfiles/a.jpg").data]).1 = 1 ∧
    ¬ ("h").data = ([] : Str) ∧
    ¬ extract_image_urls [("/orderfiles/a.jpg").data] ("http://x").data [(".jpg").data]
        ⟨false, false, []⟩ = ∅ := by
  refine ⟨by decide, by decide, by decide⟩

/-- C9: the existence check lives inside the retried body, so a first attempt
that dies mid-write leaves the partial bytes at the final path and the second
attempt resolves the job as already-existing: two attempts, one fetch call,
one retry sleep, partial file kept, and the job ends in a normal (skip)
result rather than an exhausted failure. -/
theorem C9_partial_write_resolves_as_skip (url outdir : Str)
    (oracle : Nat → FetchOutcome) (fs : FS) (w : List Nat)
    (hne : fsExists fs (localPath url outdir) = false)
    (h1 : oracle 1 = .failDuringWrite w) :
    download_image url outdir oracle fs
      = ⟨some .alreadyExists, 2, [2], 1, fsWrite fs (localPath url outdir) w⟩ :=
  download_image_partial_then_skip url outdir oracle fs w hne h1

/-- C9 witness: a concrete first-attempt mid-write failure is followed by an
already-exists resolution on attempt two, keeping the partial bytes. -/
theorem C9_witness :
    download_image ("http://x/orderfiles/a.jpg").data ("o").data
        (fun n => if n = 1 then FetchOutcome.failDuringWrite [1, 2]
                  else FetchOutcome.success [9, 9, 9]) []
      = ⟨some .alreadyExists, 2, [2], 1,
         fsWrite [] (localPath ("http://x/orderfiles/a.jpg").data ("o").data) [1, 2]⟩ :=
  C9_partial_write_resolves_as_skip ("http://x/orderfiles/a.jpg").data ("o").data
    (fun n => if n = 1 then FetchOutcome.failDuringWrite [1, 2]
              else FetchOutcome.success [9, 9, 9]) [] [1, 2] (by decide) rfl

/-- C10: the decode step drops every field whose raw value is blank — a
trailing `name=` parameter (with `name` free of the separators) never changes
the decoded pair list — and concretely `/orderfiles/a.jpg?watermark=`
canonicalizes like `/orderfiles/a.jpg` with no removal rules active, so the
two collapse to one extraction entry. -/
theorem C10_blank_values_dropped :
    (∀ (qs name : Str), (∀ c ∈ name, ¬ c = '&' ∧ ¬ c = '=') →
        parse_qsl (qs ++ '&' :: (name ++ ['='])) = parse_qsl qs) ∧
    canonicalize ("/orderfiles/a.jpg?watermark=").data ("http://x").data ⟨false, false, []⟩
      = canonicalize ("/orderfiles/a.jpg").data ("http://x").data ⟨false, false, []⟩ ∧
    (extract_image_urls [("/orderfiles/a.jpg?watermark=").data, ("/orderfiles/a.jpg").data]
        ("http://x").data [(".jpg").data] ⟨false, false, []⟩).card = 1 := by
  refine ⟨?_, by decide, by decide⟩
  intro qs name h
  rw [parse_qsl_append, parse_qsl_blank_param name h, List.append_nil]

/-- C10 witness: appending a blank `watermark=` field to a query leaves its
decoded pair list unchanged. -/
theorem C10_witness :
    parse_qsl (("a=1").data ++ '&' :: (("watermark").data ++ ['=']))
      = parse_qsl (("a=1").data) :=
  C10_blank_values_dropped.1 (("a=1").data) (("watermark").data) (by decide)

end DK
